import Mathlib

/-!
Sqliteman: view-body extraction, column sizes, statement execution, BLOB literals,
command-line arguments, clipboard copy, table fields.

A shallow embedding of the parts of Sqliteman that handle catalogue text and settings:

* `AlterViewDialog::AlterViewDialog` and `AlterViewDialog::createButton_clicked`
  (`alterviewdialog.cpp`),
* the column loop of `PopulatorDialog::PopulatorDialog` (`populatordialog.cpp`),
* `Database::runSql`, `execSql`, `hex`, `indexFields`, `getMaster`, `pragma`,
  `sqlite3handle`, `setEnableExtensions`, `parseTable` and `tableFields` (`database.cpp`),
* `ArgsParser::parseArgs`, `fileToOpen`, `executeScript` and `localeCode` (`main.cpp`),
* `DataViewer::copyHandler` (`dataviewer.cpp`),
* the DDL parser behind `Database::tableFields`, whose source is `sqlparser.cpp`: it is
  modelled from the specification, and checked against a grammar of table definitions
  (`TableDef`, with the text of a statement given token by token as `Lexeme`s).

A `QString` is modelled as the list of its characters.  The Qt library decides which
characters are spaces, word characters and digits; that classification is a parameter
(`QCharClass`) that is pinned down on the ASCII range, where Qt documents it, and left
open elsewhere, so that every theorem holds for whatever Qt does outside ASCII.
-/

namespace Sqliteman

/-! ## Definitions -/

/-- A QString, as the list of its characters. -/
abbrev QString := List Char

/-- The character classes of the Qt library that the code relies on: `QChar::isSpace`
(used by `QString::trimmed`), the word characters of `QRegExp` (`\b`, `\w`: letters,
numbers, marks and the underscore) and `QChar::isDigit` (`\d`).  On ASCII they are
fixed; elsewhere they are whatever the Unicode tables of Qt say. -/
structure QCharClass where
  /-- Models `QChar::isSpace`. -/
  isSpace : Char → Bool
  /-- Models a word character of `QRegExp`. -/
  isWord : Char → Bool
  /-- Models `QChar::isDigit`. -/
  isDigit : Char → Bool
  isSpace_ascii : ∀ c : Char, c.toNat < 128 →
    isSpace c = (c == ' ' || (decide (9 ≤ c.toNat) && decide (c.toNat ≤ 13)))
  isWord_ascii : ∀ c : Char, c.toNat < 128 → isWord c = (c.isAlphanum || c == '_')
  isDigit_ascii : ∀ c : Char, c.toNat < 128 → isDigit c = c.isDigit
  /-- A character has one Unicode category: a decimal digit is not a space. -/
  isDigit_not_isSpace : ∀ c : Char, isDigit c = true → isSpace c = false

/-- The classification that knows ASCII only: nothing outside ASCII is a space, a word
character or a digit. -/
def QCharClass.ascii : QCharClass where
  isSpace c :=
    decide (c.toNat < 128) && (c == ' ' || (decide (9 ≤ c.toNat) && decide (c.toNat ≤ 13)))
  isWord c := decide (c.toNat < 128) && (c.isAlphanum || c == '_')
  isDigit c := decide (c.toNat < 128) && c.isDigit
  isSpace_ascii c h := by simp [h]
  isWord_ascii c h := by simp [h]
  isDigit_ascii c h := by simp [h]
  isDigit_not_isSpace c h := by
    simp only [Bool.and_eq_true, decide_eq_true_eq] at h
    have h48 : 48 ≤ c.toNat := by
      have := h.2
      simp only [Char.isDigit, Bool.and_eq_true, decide_eq_true_eq] at this
      exact this.1
    have h1 : c ≠ ' ' := by
      rintro rfl
      exact absurd h48 (by decide)
    have h2 : ¬ c.toNat ≤ 13 := by omega
    simp [h1, h2]

/-- `QString::right(n)`: the last `n` characters, the whole string when `n` is negative
or not smaller than the length. -/
def QString.right (s : QString) (n : Int) : QString :=
  if n < 0 ∨ (s.length : Int) ≤ n then s else s.drop (s.length - n.toNat)

/-- `QString::trimmed()`: the string without its leading and trailing spaces. -/
def QString.trimmed (Q : QCharClass) (s : QString) : QString :=
  ((s.dropWhile Q.isSpace).reverse.dropWhile Q.isSpace).reverse

/-- The anchor `\b` of QRegExp between the character before and the character after a
position: exactly one of the two is a word character (the ends of the text count as
non-word). -/
def wordBoundary (Q : QCharClass) (prev next : Option Char) : Bool :=
  prev.any Q.isWord != next.any Q.isWord

/-- A pattern character `m` against a text character `ch` under `Qt::CaseInsensitive`:
both are lower-cased.  The pattern characters here are `A` and `S`, whose only
case variants are ASCII. -/
def ciEq (m ch : Char) : Bool :=
  m.toLower == ch.toLower

/-- The pattern `\bAS\b`, case-insensitive, matched at the start of `s`, `prev` being the
character before it. -/
def matchASHere (Q : QCharClass) (prev : Option Char) : QString → Bool
  | c1 :: c2 :: rest =>
      wordBoundary Q prev (some c1) && ciEq 'A' c1 && ciEq 'S' c2 &&
        wordBoundary Q (some c2) rest.head?
  | _ => false

/-- The left-to-right search of `QString::indexOf(QRegExp)`: the first position, counted
from `pos`, at which the pattern matches. -/
def indexOfASFrom (Q : QCharClass) : Option Char → Nat → QString → Option Nat
  | _, _, [] => none
  | prev, pos, c :: rest =>
      if matchASHere Q prev (c :: rest) then some pos
      else indexOfASFrom Q (some c) (pos + 1) rest

/-- `s.indexOf(QRegExp("\\bAS\\b", Qt::CaseInsensitive))`: the position of the first match,
or -1. -/
def indexOfAS (Q : QCharClass) (s : QString) : Int :=
  match indexOfASFrom Q none 0 s with
  | some p => (p : Int)
  | none => -1

/-- The two widgets of the dialog that the constructor's loop touches. -/
structure AlterViewUi where
  /-- The text of `ui.sqlEdit`. -/
  sqlEdit : QString
  /-- Whether `ui.createButton` is enabled. -/
  createButtonEnabled : Bool
deriving DecidableEq, Repr

/-- The body of the `while (query.next())` loop of `AlterViewDialog::AlterViewDialog`
for one row `s` of the catalogue. -/
def AlterViewDialog.row (Q : QCharClass) (ui : AlterViewUi) (s : QString) : AlterViewUi :=
  let pos := indexOfAS Q s
  if pos = -1 then
    { ui with createButtonEnabled := false }
  else
    { ui with sqlEdit := (s.right ((s.length : Int) - pos - 2)).trimmed Q }

set_option linter.dupNamespace false in
/-- The loop of `AlterViewDialog::AlterViewDialog` over the rows the query returns,
started from the state `ui` that `setupUi` leaves. -/
def AlterViewDialog.AlterViewDialog (Q : QCharClass) (ui : AlterViewUi) (rows : List QString) :
    AlterViewUi :=
  rows.foldl (AlterViewDialog.row Q) ui

/-- The statement `AlterViewDialog::createButton_clicked` builds to recreate the view from
the text of the SQL editor; the quoting function `Utils::q` (of `utils.cpp`) is the
parameter `q`. -/
def AlterViewDialog.createButton_clicked (q : QString → QString)
    (schema name sqlEdit : QString) : QString :=
  "CREATE VIEW ".toList ++ q schema ++ ".".toList ++ q name ++ " AS\n".toList ++ sqlEdit
    ++ ";".toList

/-- The character before the position that follows `m`, `p` being the one before `m`. -/
def prevAfter (p : Option Char) (m : QString) : Option Char :=
  match m.getLast? with
  | some c => some c
  | none => p

/-- A text neither starts nor ends with a space. -/
def QString.outerSpaceFree (Q : QCharClass) (b : QString) : Bool :=
  !b.head?.any Q.isSpace && !b.getLast?.any Q.isSpace

/-- An unquoted SQL identifier: ASCII letters, digits and underscores, not starting with a
digit. -/
def isPlainIdentifier (name : QString) : Bool :=
  name.head?.any (fun c => c.isAlpha || c == '_') &&
    name.all (fun c => c.isAlphanum || c == '_')

/-- A whole-word `AS`, in any letter case, stands between `pre` and `post`: the two
letters are neither preceded nor followed by a word character. -/
def IsWordASAt (Q : QCharClass) (pre : QString) (a z : Char) (post : QString) : Prop :=
  (a = 'A' ∨ a = 'a') ∧ (z = 'S' ∨ z = 's') ∧ pre.getLast?.any Q.isWord = false ∧
    post.head?.any Q.isWord = false

/-- A whole-word `AS`, in any letter case, occurs somewhere in `s`. -/
def HasWordAS (Q : QCharClass) (s : QString) : Prop :=
  ∃ pre a z post, s = pre ++ a :: z :: post ∧ IsWordASAt Q pre a z post

/-- A `QSqlQuery` as far as `runSql` and `execSql` look at it. -/
structure QSqlQuery where
  /-- Models `lastError().isValid()`. -/
  lastErrorValid : Bool
  /-- Models `isActive()`. -/
  active : Bool
deriving DecidableEq, Repr

/-- What became of a statement handed to the driver: it ran without error, it ran into an
error, or it was not run at all (the connection is not open). -/
inductive ExecOutcome where
  | done
  | failed
  | notRun
deriving DecidableEq, Repr

/-- The constructor `QSqlQuery(statement, db)` of Qt: an empty statement is not executed;
otherwise the driver is asked to run it, `db statement` being what becomes of it.  A
statement that ran without error leaves the query active, one that failed leaves it
inactive with its last error set, one that was not run leaves it inactive without error. -/
def QSqlQuery.create (db : QString → ExecOutcome) (statement : QString) : QSqlQuery :=
  if statement.isEmpty then { lastErrorValid := false, active := false }
  else
    match db statement with
    | ExecOutcome.done => { lastErrorValid := false, active := true }
    | ExecOutcome.failed => { lastErrorValid := true, active := false }
    | ExecOutcome.notRun => { lastErrorValid := false, active := false }

/-- `QSqlQuery::clear()`: the query becomes a fresh, inactive one. -/
def QSqlQuery.clear (_query : QSqlQuery) : QSqlQuery :=
  { lastErrorValid := false, active := false }

/-- `Database::runSql`: the query it returns, and whether `exception` reported an error
to the user. -/
def Database.runSql (db : QString → ExecOutcome) (statement : QString) : QSqlQuery × Bool :=
  let query := QSqlQuery.create db statement
  if query.lastErrorValid then (query.clear, true) else (query, false)

/-- `Database::execSql`: the value it returns, and whether an error was reported. -/
def Database.execSql (db : QString → ExecOutcome) (statement : QString) : Bool × Bool :=
  let r := Database.runSql db statement
  (!r.1.active, r.2)

/-- Models `val.at(i)` of a QByteArray: the byte as a `char`, which is negative from 0x80
on where `char` is signed. -/
def QByteArray.at (signedChar : Bool) (b : Fin 256) : Int :=
  if signedChar && decide (128 ≤ b.val) then (b.val : Int) - 256 else (b.val : Int)

/-- The operator `&` on two `int`s: the bitwise and of their 32-bit two's-complement
representations, read back as a signed number. -/
def intAnd (x y : Int) : Int :=
  let r := Nat.land (x % 4294967296).toNat (y % 4294967296).toNat
  if r < 2147483648 then (r : Int) else (r : Int) - 4294967296

/-- The table `hexdigits` of `Database::hex`. -/
def Database.hexdigits : List Char :=
  ['0', '1', '2', '3', '4', '5', '6', '7', '8', '9', 'A', 'B', 'C', 'D', 'E', 'F']

/-- `hexdigits[i]` for an `int` index. -/
def Database.hexdigit (i : Int) : Char :=
  Database.hexdigits.getD i.toNat '?'

/-- `Database::hex`. -/
def Database.hex (signedChar : Bool) (val : List (Fin 256)) : QString :=
  val.foldl
    (fun ret b =>
      ret ++ [Database.hexdigit (intAnd (QByteArray.at signedChar b >>> 4) 0xf)]
        ++ [Database.hexdigit (intAnd (QByteArray.at signedChar b) 0xf)])
    "X'".toList
  ++ "'".toList

/-- The upper-case hexadecimal digit of a nibble. -/
def upperHexDigit (d : Nat) : Char :=
  if d < 10 then Char.ofNat (48 + d) else Char.ofNat (55 + d)

/-- The BLOB literal of SQLite for a byte array: two upper-case hexadecimal digits per
byte, high nibble first. -/
def blobLiteral (val : List (Fin 256)) : QString :=
  "X'".toList ++ val.flatMap (fun b => [upperHexDigit (b.val / 16), upperHexDigit (b.val % 16)])
    ++ "'".toList

/-- Modelled from the spec: `FieldInfo` is declared in `sqlparser.h`; it is the column
descriptor of the parse result, of which the populator reads the name, the declared type
and the primary-key mark. -/
structure FieldInfo where
  name : QString
  type : QString
  isPartOfPrimaryKey : Bool
deriving DecidableEq, Repr

/-- Modelled from the spec: `Populator::PopColumn` is declared in `populator.h`; these are
its fields that the constructor's loop assigns (the nominal size among them). -/
structure PopColumn where
  name : QString
  type : QString
  pk : Bool
  size : Int
  userValue : QString
deriving DecidableEq, Repr

/-- The tail `\d*\)` of the pattern at the start of a text: the text it matches.  A
closing parenthesis is no digit, so the digits the pattern takes are the whole run. -/
def matchDigitsClose (Q : QCharClass) : QString → Option QString
  | [] => none
  | c :: rest =>
      if Q.isDigit c then (matchDigitsClose Q rest).map (fun m => c :: m)
      else if c = ')' then some [c]
      else none

/-- The pattern `\(\d+\)` of `sizeExp` at the start of a text: the text it matches. -/
def matchSizeHere (Q : QCharClass) : QString → Option QString
  | c :: d :: rest =>
      if c = '(' ∧ Q.isDigit d = true then
        (matchDigitsClose Q rest).map (fun m => c :: d :: m)
      else none
  | _ => none

/-- The search of `sizeExp.indexIn`, counting positions from `pos`: the first position
with a match, and the matched text. -/
def sizeExpSearch (Q : QCharClass) : Nat → QString → Option (Nat × QString)
  | _, [] => none
  | pos, c :: rest =>
      match matchSizeHere Q (c :: rest) with
      | some m => some (pos, m)
      | none => sizeExpSearch Q (pos + 1) rest

/-- `sizeExp.indexIn(str)` together with `sizeExp.capturedTexts()[0]` afterwards: the
position of the first match (-1 without one) and the matched text. -/
def sizeExpIndexIn (Q : QCharClass) (str : QString) : Int × QString :=
  match sizeExpSearch Q 0 str with
  | some (pos, m) => ((pos : Int), m)
  | none => (-1, [])

/-- `QString::remove(ch)`: every occurrence of the character is taken out. -/
def QString.remove (s : QString) (ch : Char) : QString :=
  s.filter (fun c => c != ch)

/-- The number a sequence of ASCII digits writes in base 10. -/
def decimalValue (ds : QString) : Nat :=
  ds.foldl (fun acc c => 10 * acc + (c.toNat - 48)) 0

/-- `QString::toInt(&ok)` of Qt in base 10, as the value and `ok`: spaces around the number
are skipped, then an optional sign and at least one ASCII digit are read; the result is
`(0, false)` if anything else is found or the number is not an `int`. -/
def QString.toInt (Q : QCharClass) (s : QString) : Int × Bool :=
  let t := QString.trimmed Q s
  let neg := t.head? == some '-'
  let ds := if t.head? == some '-' || t.head? == some '+' then t.tail else t
  let v : Int := if neg then -(decimalValue ds : Int) else (decimalValue ds : Int)
  if !ds.isEmpty && ds.all Char.isDigit && decide (-2147483648 ≤ v) && decide (v ≤ 2147483647)
  then (v, true) else (0, false)

/-- The body of the loop of `PopulatorDialog::PopulatorDialog` that fills a `PopColumn`
from the field `f`. -/
def PopulatorDialog.column (Q : QCharClass) (f : FieldInfo) : PopColumn :=
  let r := sizeExpIndexIn Q f.type
  let size : Int :=
    if r.1 ≠ -1 then
      let s := (r.2.remove '(').remove ')'
      let p := QString.toInt Q s
      if !p.2 then 10 else p.1
    else 10
  { name := f.name, type := f.type, pk := f.isPartOfPrimaryKey, size := size, userValue := [] }

/-- A parenthesised group of digits `(n)` stands between `pre` and `post`. -/
def IsSizeGroupAt (Q : QCharClass) (s pre ds post : QString) : Prop :=
  s = pre ++ '(' :: ds ++ ')' :: post ∧ ds ≠ [] ∧ ∀ c ∈ ds, Q.isDigit c = true

/-- A text contains a parenthesised group of digits. -/
def HasSizeGroup (Q : QCharClass) (s : QString) : Prop :=
  ∃ pre ds post, IsSizeGroupAt Q s pre ds post

/-- `QString::compare(other, Qt::CaseInsensitive)`: the texts are compared character by
character after case folding (`foldCase` models the folding of `QChar`); the result is 0
exactly for texts that are equal after folding, otherwise it is negative or positive
as the first difference tells. -/
def QString.compare (foldCase : Char → Char) : QString → QString → Int
  | [], [] => 0
  | [], _ :: _ => -1
  | _ :: _, [] => 1
  | a :: s, b :: t =>
      if foldCase a = foldCase b then QString.compare foldCase s t
      else if (foldCase a).toNat < (foldCase b).toNat then -1
      else 1

/-- `QString::arg(a)` on a format whose only place marker is `%1`, not followed by a
digit: each `%1` is replaced by `a`. -/
def QString.arg : QString → QString → QString
  | [], _ => []
  | [c], _ => [c]
  | c :: d :: rest, a =>
      if c = '%' ∧ d = '1' then a ++ QString.arg rest a
      else c :: QString.arg (d :: rest) a

/-- What a `QSqlQuery` constructed on a statement offers once the statement was handed to
the driver: whether its last error is valid, and the rows that `next()` steps through,
each row being the texts of its fields. -/
structure QueryResult where
  /-- Models `lastError().isValid()`. -/
  lastErrorValid : Bool
  /-- The rows of the result, in the order of `next()`. -/
  rows : List (List QString)
deriving DecidableEq, Repr

/-- `query.value(i).toString()` on a row: the text of field `i`, empty when the row has
no such field. -/
def QueryResult.value (row : List QString) (i : Nat) : QString :=
  row.getD i []

/-- `Database::getMaster`; `q` is `Utils::q`. -/
def Database.getMaster (foldCase : Char → Char) (q : QString → QString) (schema : QString) :
    QString :=
  if QString.compare foldCase schema "temp".toList = 0 then "sqlite_temp_master".toList
  else QString.arg "%1.sqlite_master".toList (q schema)

/-- The loop `while (query.next()) fields.append(query.value(2).toString())` of
`Database::indexFields`. -/
def Database.indexFieldsLoop : List (List QString) → List QString → List QString
  | [], fields => fields
  | row :: rest, fields => Database.indexFieldsLoop rest (fields ++ [QueryResult.value row 2])

/-- `Database::indexFields`: the list it returns, and whether `exception` reported an
error.  `q` is `Utils::q`, `db` gives the result of a statement on the session's
connection. -/
def Database.indexFields (q : QString → QString) (db : QString → QueryResult)
    (index schema : QString) : List QString × Bool :=
  let sql := "PRAGMA ".toList ++ q schema ++ ".INDEX_INFO(".toList ++ q index ++ ");".toList
  let query := db sql
  let fields : List QString := []
  if query.lastErrorValid then (fields, true)
  else (Database.indexFieldsLoop query.rows fields, false)

/-- `Database::pragma`: the text it returns, and whether `exception` reported an error.
`tr` is the translation function of Qt. -/
def Database.pragma (foldCase : Char → Char) (tr : QString → QString)
    (db : QString → QueryResult) (name : QString) : QString × Bool :=
  let statement :=
    if QString.compare foldCase name "case_sensitive_like".toList = 0 then
      "VALUES ('a' NOT LIKE 'A') ;".toList
    else QString.arg "PRAGMA main.%1;".toList name
  let query := db statement
  if query.lastErrorValid then ("error".toList, true)
  else
    match query.rows with
    | row :: _ => (QueryResult.value row 0, false)
    | [] => (tr "Not Set".toList, false)

/-- The `QVariant` that `driver()->handle()` returns: whether it is valid, whether its type
name is `sqlite3*`, and the pointer it holds (`none` for a null pointer). -/
structure DriverHandle where
  valid : Bool
  isSqlite3 : Bool
  pointer : Option Nat
deriving DecidableEq, Repr

/-- `Database::sqlite3handle`: the handle (`none` for 0), and whether `exception` was
called. -/
def Database.sqlite3handle (v : DriverHandle) : Option Nat × Bool :=
  if !v.valid then (none, true)
  else if !v.isSqlite3 then (none, true)
  else
    match v.pointer with
    | none => (none, true)
    | some h => (some h, false)

/-- `Database::setEnableExtensions`: the value it returns and the extension-loading flag
of the connection afterwards, `flag` being the one before.  `apiOk` tells whether a call of
`sqlite3_enable_load_extension` returns `SQLITE_OK`; a call that does sets the flag. -/
def Database.setEnableExtensions (v : DriverHandle) (apiOk : Bool) (flag : Bool)
    (enable : Bool) : Bool × Bool :=
  if v.valid then (false, flag)
  else
    match (Database.sqlite3handle v).1 with
    | some _ =>
        if !apiOk then (false, flag) else (true, enable)
    | none => (true, flag)

/-- `QString::left(n)`: the first `n` characters, the whole string when `n` is negative
or not smaller than the length. -/
def QString.left (s : QString) (n : Int) : QString :=
  if n < 0 ∨ (s.length : Int) ≤ n then s else s.take n.toNat

/-- `QMap<int, V>`: its entries, in ascending order of the keys, as the iterators of Qt
go through them. -/
abbrev QMap (V : Type) := List (Int × V)

/-- `QMap::insert` (and assignment through `operator[]`): the value is put at the key's
place in the order, replacing the value of an equal key. -/
def QMap.insert {V : Type} : QMap V → Int → V → QMap V
  | [], k, v => [(k, v)]
  | (k', v') :: rest, k, v =>
      if k < k' then (k, v) :: (k', v') :: rest
      else if k = k' then (k, v) :: rest
      else (k', v') :: QMap.insert rest k v

/-- `QMap::value(key)`: the value at a key, if the map has the key. -/
def QMap.lookup {V : Type} : QMap V → Int → Option V
  | [], _ => none
  | (k', v') :: rest, k => if k = k' then some v' else QMap.lookup rest k

/-- Reading `m[k]` of a non-const `QMap`: the value at the key, and the map afterwards;
a missing key is first inserted with the default value `dflt`. -/
def QMap.index {V : Type} (m : QMap V) (k : Int) (dflt : V) : V × QMap V :=
  match QMap.lookup m k with
  | some v => (v, m)
  | none => (dflt, QMap.insert m k dflt)

/-- The macro `ARG_VERSION` of `main.cpp`. -/
def ARG_VERSION : QString := "--version".toList

/-- The macro `ARG_HELP` of `main.cpp`. -/
def ARG_HELP : QString := "--help".toList

/-- The macro `ARG_LANG` of `main.cpp`. -/
def ARG_LANG : QString := "--lang".toList

/-- The macro `ARG_AVAILLANG` of `main.cpp`. -/
def ARG_AVAILLANG : QString := "--langs".toList

/-- The macro `ARG_VERSION_SHORT` of `main.cpp`. -/
def ARG_VERSION_SHORT : QString := "-v".toList

/-- The macro `ARG_HELP_SHORT` of `main.cpp`. -/
def ARG_HELP_SHORT : QString := "-h".toList

/-- The macro `ARG_LANG_SHORT` of `main.cpp`. -/
def ARG_LANG_SHORT : QString := "-l".toList

/-- The macro `ARG_AVAILLANG_SHORT` of `main.cpp`. -/
def ARG_AVAILLANG_SHORT : QString := "-la".toList

/-- The macro `ARG_SCRIPT` of `main.cpp`. -/
def ARG_SCRIPT : QString := "-s".toList

/-- The macro `ARG_EXECUTE` of `main.cpp`. -/
def ARG_EXECUTE : QString := "-x".toList

/-- The members of `ArgsParser` that change after construction.  A null `QString` is
`none`. -/
structure ArgsParser where
  m_locale : QString
  m_localeList : QMap QString
  m_lastDB : Option QString
  m_lastSqlFile : Option QString
  m_execute : Bool
deriving DecidableEq, Repr

/-- Modelled from the spec: the settings of `Preferences` (declared in `preferences.h`)
that `ArgsParser` reads. -/
structure Preferences where
  GUItranslator : Int
  openLastDB : Bool
  lastDB : QString
deriving DecidableEq, Repr

/-- The members as the constructor `ArgsParser::ArgsParser` leaves them, `localeList`
being the translations it found. -/
def ArgsParser.new (localeList : QMap QString) : ArgsParser :=
  { m_locale := [], m_localeList := localeList, m_lastDB := none, m_lastSqlFile := none,
    m_execute := false }

/-- The last branch of the loop of `ArgsParser::parseArgs`, for an argument that is none
of the options: it is the database file, and parsing ends. -/
def ArgsParser.parseDatabase (fileExists : QString → Bool) (arg : QString)
    (st : ArgsParser) : Bool × ArgsParser :=
  if arg = ARG_VERSION ∨ arg = ARG_VERSION_SHORT then (false, st)
  else if arg = ARG_HELP ∨ arg = ARG_HELP_SHORT then (false, st)
  else if arg = ARG_AVAILLANG ∨ arg = ARG_AVAILLANG_SHORT then (false, st)
  else
    if !fileExists arg then (false, { st with m_lastDB := some arg })
    else (true, { st with m_lastDB := some arg })

/-- `ArgsParser::parseArgs` on the arguments `argv[1]`, ..., `argv[argc-1]`: the value it
returns and the members afterwards.  `fileExists` models `QFileInfo(name).exists()`.  An
option that wants a value and is the last argument leaves `i` at `argc`: the last branch
then reads `argv[argc]`, a null pointer, which names no file. -/
def ArgsParser.parseArgs (fileExists : QString → Bool) :
    List QString → ArgsParser → Bool × ArgsParser
  | [], st => (true, st)
  | [arg], st =>
      if arg = ARG_LANG ∨ arg = ARG_LANG_SHORT ∨ arg = ARG_SCRIPT ∨ arg = ARG_EXECUTE then
        (false, { st with m_lastDB := none })
      else ArgsParser.parseDatabase fileExists arg st
  | arg :: value :: rest, st =>
      if arg = ARG_LANG ∨ arg = ARG_LANG_SHORT then
        ArgsParser.parseArgs fileExists rest { st with m_locale := value }
      else if arg = ARG_SCRIPT ∨ arg = ARG_EXECUTE then
        if !fileExists value then (false, { st with m_lastSqlFile := some value })
        else
          ArgsParser.parseArgs fileExists rest
            { st with
              m_lastSqlFile := some value
              m_execute := if arg = ARG_EXECUTE then true else st.m_execute }
      else ArgsParser.parseDatabase fileExists arg st

/-- `ArgsParser::fileToOpen`: the file name it returns (`none` when null) and the members
afterwards. -/
def ArgsParser.fileToOpen (fileExists : QString → Bool) (p : Preferences)
    (st : ArgsParser) : Option QString × ArgsParser :=
  if st.m_lastDB.isNone then
    let st1 := { st with m_execute := false }
    let st2 :=
      if p.openLastDB && fileExists p.lastDB then { st1 with m_lastDB := some p.lastDB }
      else st1
    (st2.m_lastDB, st2)
  else (st.m_lastDB, st)

/-- `ArgsParser::executeScript`. -/
def ArgsParser.executeScript (st : ArgsParser) : Bool :=
  st.m_execute && !st.m_lastDB.isNone

/-- `ArgsParser::localeCode`: the code it returns and the members afterwards (reading a
missing key of `m_localeList` inserts it).  `localeName` models `QLocale(name).name()`,
`systemName` models `QLocale::system().name()`. -/
def ArgsParser.localeCode (localeName : QString → QString) (systemName : QString)
    (p : Preferences) (st : ArgsParser) : QString × ArgsParser :=
  if !st.m_locale.isEmpty then ((localeName st.m_locale).left 2, st)
  else if p.GUItranslator ≠ 0 then
    let r := QMap.index st.m_localeList p.GUItranslator []
    (r.1.left 2, { st with m_localeList := r.2 })
  else (systemName.left 2, st)

/-- The options of the command line that take a value. -/
def valueOptions : List QString := [ARG_LANG, ARG_LANG_SHORT, ARG_SCRIPT, ARG_EXECUTE]

/-- All the options of the command line. -/
def allOptions : List QString :=
  [ARG_LANG, ARG_LANG_SHORT, ARG_SCRIPT, ARG_EXECUTE, ARG_VERSION, ARG_VERSION_SHORT,
    ARG_HELP, ARG_HELP_SHORT, ARG_AVAILLANG, ARG_AVAILLANG_SHORT]

/-- A command line read as options with their values, `pairs`, followed by `rest`: nothing,
or a database file that exists, which is no option, and whatever follows it. -/
def IsCommandLine (fileExists : QString → Bool) (args : List QString)
    (pairs : List (QString × QString)) (rest : List QString) : Prop :=
  args = pairs.flatMap (fun p => [p.1, p.2]) ++ rest ∧
  (∀ p ∈ pairs, p.1 ∈ valueOptions) ∧
  (rest = [] ∨ ∃ db tail, rest = db :: tail ∧ db ∉ allOptions ∧ fileExists db = true)

/-- A `QModelIndex` of the table view: its row and its column. -/
structure QModelIndex where
  row : Int
  column : Int
deriving DecidableEq, Repr

/-- The assignment `snapshot[i->row()][i->column()] = i->data().toString()` of
`DataViewer::copyHandler` for one selected index; `data` is the text the model shows at
a row and a column. -/
def DataViewer.copySnapshotStep (data : Int → Int → QString) (snapshot : QMap (QMap QString))
    (i : QModelIndex) : QMap (QMap QString) :=
  let r := QMap.index snapshot i.row []
  QMap.insert r.2 i.row (QMap.insert r.1 i.column (data i.row i.column))

/-- The inner loop of `DataViewer::copyHandler` over the cells of one row: each value,
with a tab after it when another one follows. -/
def DataViewer.copyRow : QMap QString → List QString
  | [] => []
  | [(_, v)] => [v]
  | (_, v) :: e :: rest => v :: "\t".toList :: DataViewer.copyRow (e :: rest)

/-- The outer loop of `DataViewer::copyHandler` over the rows of the snapshot: the pieces
appended to `out`. -/
def DataViewer.copyOut (snapshot : QMap (QMap QString)) : List QString :=
  snapshot.flatMap (fun e => DataViewer.copyRow e.2 ++ ["\n".toList])

/-- `DataViewer::copyHandler` on the selected indexes `l`: the text it sets on the
clipboard, `none` when it does not write the clipboard. -/
def DataViewer.copyHandler (data : Int → Int → QString) (l : List QModelIndex) :
    Option QString :=
  let snapshot := l.foldl (DataViewer.copySnapshotStep data) []
  let out := DataViewer.copyOut snapshot
  if out.length ≠ 0 then some out.flatten else none

/-- The distinct numbers of a list, in ascending order. -/
def ascendingKeys (ks : List Int) : List Int :=
  ks.dedup.insertionSort (fun a b => a ≤ b)

/-- The text of a selection in the way of a spreadsheet: the selected rows in ascending
order, in each row the texts of its selected cells in ascending column order with a tab
between them, and a newline after each row. -/
def selectionText (data : Int → Int → QString) (l : List QModelIndex) : QString :=
  (ascendingKeys (l.map (fun i => i.row))).flatMap (fun r =>
    List.intercalate ['\t']
      ((ascendingKeys ((l.filter (fun i => decide (i.row = r))).map (fun i => i.column))).map
        (data r))
    ++ ['\n'])

/-- The snapshot `snapshot` of `DataViewer::copyHandler` holds exactly the cells `l`: its
keys ascend and are the rows of `l`; at each row the keys ascend and are the columns of
the cells of `l` in that row, each with the text of its cell. -/
def IsSnapshotOf (data : Int → Int → QString) (l : List QModelIndex)
    (snapshot : QMap (QMap QString)) : Prop :=
  (snapshot.map Prod.fst).Sorted (fun a b => a < b) ∧
  (∀ r, r ∈ snapshot.map Prod.fst ↔ r ∈ l.map (fun i => i.row)) ∧
  ∀ r inner, (r, inner) ∈ snapshot →
    (inner.map Prod.fst).Sorted (fun a b => a < b) ∧
    (∀ c, c ∈ inner.map Prod.fst ↔ (⟨r, c⟩ : QModelIndex) ∈ l) ∧
    ∀ c v, (c, v) ∈ inner → v = data r c

/-- Modelled from the spec: the error taxonomy of the DDL parser (the parser's source,
`sqlparser.cpp`, is not among the files): a structural problem with the offset where it
was detected, a clause that cannot be classified, a construct that is not modelled. -/
inductive ParseError where
  | Malformed (offset : Nat)
  | UnrecognizedClause (text : QString)
  | UnsupportedConstruct (text : QString)
deriving DecidableEq, Repr

/-- Modelled from the spec: the lexical units of a DDL statement (for `sqlparser.cpp`):
an unquoted word, a quoted identifier or literal without its quotes, the parentheses,
the comma, and any other sign. -/
inductive SqlToken where
  | word (text : QString)
  | quoted (text : QString)
  | lparen
  | rparen
  | comma
  | symbol (c : Char)
deriving DecidableEq, Repr

/-- Modelled from the spec: the modes of the scanner of the DDL parser (for
`sqlparser.cpp`): normal, inside a quote that `close` ends (single, double, backtick,
bracket), inside a line comment, inside a block comment (and on its opening star and its
closing slash). -/
inductive LexMode where
  | normal
  | quote (close : Char)
  | lineComment
  | blockOpen
  | blockComment
  | blockClose
deriving DecidableEq, Repr

/-- Ends the word gathered so far, if there is one, before the tokens that follow. -/
def SqlLexer.flush (cur : QString) (ts : List SqlToken) : List SqlToken :=
  if cur.isEmpty then ts else SqlToken.word cur :: ts

/-- The token of a sign that is neither a word character, a space, a quote nor the start
of a comment. -/
def SqlLexer.sign (c : Char) : SqlToken :=
  if c = '(' then SqlToken.lparen
  else if c = ')' then SqlToken.rparen
  else if c = ',' then SqlToken.comma
  else SqlToken.symbol c

/-- The quote that ends what the quote `c` starts, if `c` starts a quoted text: single
quote, double quote, backtick, bracket. -/
def SqlLexer.closing (c : Char) : Option Char :=
  if c = Char.ofNat 39 then some (Char.ofNat 39)
  else if c = '"' then some '"'
  else if c = Char.ofNat 96 then some (Char.ofNat 96)
  else if c = '[' then some ']'
  else none

/-- Modelled from the spec: the scanner of the DDL parser (for `sqlparser.cpp`), a state
machine that goes through the text from left to right.  Spaces and comments only
separate; a quoted text is one token; a quote that is not closed is `Malformed`, with the
offset of the end of the text, where it is detected.  `cur` is the word or quoted text
gathered so far, `off` the offset of the next character. -/
def SqlLexer.scan (Q : QCharClass) :
    LexMode → QString → Nat → QString → Except ParseError (List SqlToken)
  | LexMode.normal, cur, _, [] => Except.ok (SqlLexer.flush cur [])
  | LexMode.normal, cur, off, c :: rest =>
      if Q.isWord c then SqlLexer.scan Q LexMode.normal (cur ++ [c]) (off + 1) rest
      else if Q.isSpace c then
        (SqlLexer.scan Q LexMode.normal [] (off + 1) rest).map (SqlLexer.flush cur)
      else if c = '-' ∧ rest.head? = some '-' then
        (SqlLexer.scan Q LexMode.lineComment [] (off + 1) rest).map (SqlLexer.flush cur)
      else if c = '/' ∧ rest.head? = some '*' then
        (SqlLexer.scan Q LexMode.blockOpen [] (off + 1) rest).map (SqlLexer.flush cur)
      else
        match SqlLexer.closing c with
        | some close =>
            (SqlLexer.scan Q (LexMode.quote close) [] (off + 1) rest).map (SqlLexer.flush cur)
        | none =>
            (SqlLexer.scan Q LexMode.normal [] (off + 1) rest).map
              (fun ts => SqlLexer.flush cur (SqlLexer.sign c :: ts))
  | LexMode.quote _, _, off, [] => Except.error (ParseError.Malformed off)
  | LexMode.quote close, cur, off, c :: rest =>
      if c = close then
        (SqlLexer.scan Q LexMode.normal [] (off + 1) rest).map
          (fun ts => SqlToken.quoted cur :: ts)
      else SqlLexer.scan Q (LexMode.quote close) (cur ++ [c]) (off + 1) rest
  | LexMode.lineComment, _, _, [] => Except.ok []
  | LexMode.lineComment, _, off, c :: rest =>
      if c = '\n' then SqlLexer.scan Q LexMode.normal [] (off + 1) rest
      else SqlLexer.scan Q LexMode.lineComment [] (off + 1) rest
  | LexMode.blockOpen, _, _, [] => Except.ok []
  | LexMode.blockOpen, _, off, _ :: rest => SqlLexer.scan Q LexMode.blockComment [] (off + 1) rest
  | LexMode.blockComment, _, _, [] => Except.ok []
  | LexMode.blockComment, _, off, c :: rest =>
      if c = '*' ∧ rest.head? = some '/' then
        SqlLexer.scan Q LexMode.blockClose [] (off + 1) rest
      else SqlLexer.scan Q LexMode.blockComment [] (off + 1) rest
  | LexMode.blockClose, _, _, [] => Except.ok []
  | LexMode.blockClose, _, off, _ :: rest => SqlLexer.scan Q LexMode.normal [] (off + 1) rest

/-- Whether a token is the unquoted keyword `kw`, in any letter case. -/
def SqlToken.isKeyword (foldCase : Char → Char) (kw : QString) : SqlToken → Bool
  | SqlToken.word w => decide (QString.compare foldCase w kw = 0)
  | _ => false

/-- Whether a token is one of the unquoted keywords `kws`, in any letter case. -/
def SqlToken.isKeywordOf (foldCase : Char → Char) (kws : List QString) (t : SqlToken) : Bool :=
  kws.any (fun kw => t.isKeyword foldCase kw)

/-- The text a token stands for. -/
def SqlToken.text : SqlToken → QString
  | SqlToken.word w => w
  | SqlToken.quoted w => w
  | SqlToken.lparen => ['(']
  | SqlToken.rparen => [')']
  | SqlToken.comma => [',']
  | SqlToken.symbol c => [c]

/-- Whether a token is a name: a word or a quoted text. -/
def SqlToken.isName : SqlToken → Bool
  | SqlToken.word _ => true
  | SqlToken.quoted _ => true
  | _ => false

/-- The text of a run of tokens: the texts of the tokens, with one space between two
names that follow each other. -/
def SqlToken.render : List SqlToken → QString
  | [] => []
  | [t] => t.text
  | t :: u :: rest =>
      t.text ++ (if t.isName && u.isName then [' '] else []) ++ SqlToken.render (u :: rest)

/-- Puts a token in front of the first of the clauses found behind it. -/
def SqlParser.prepend (t : SqlToken) (r : List (List SqlToken) × List SqlToken) :
    List (List SqlToken) × List SqlToken :=
  match r.1 with
  | c :: cs => ((t :: c) :: cs, r.2)
  | [] => ([[t]], r.2)

/-- Modelled from the spec: the split of a parenthesised list into its clauses (for
`sqlparser.cpp`).  The tokens behind the opening parenthesis are gone through from left
to right with the paren depth; a comma separates clauses only at depth zero; the closing
parenthesis at depth zero ends the list.  The result is the clauses and the tokens behind
the list; a list that is not closed is `Malformed`, detected at the end of the text
(offset `off`). -/
def SqlParser.splitClauses (off : Nat) :
    Nat → List SqlToken → Except ParseError (List (List SqlToken) × List SqlToken)
  | _, [] => Except.error (ParseError.Malformed off)
  | depth, t :: ts =>
      match t with
      | SqlToken.rparen =>
          if depth = 0 then Except.ok ([[]], ts)
          else (SqlParser.splitClauses off (depth - 1) ts).map (SqlParser.prepend t)
      | SqlToken.lparen => (SqlParser.splitClauses off (depth + 1) ts).map (SqlParser.prepend t)
      | SqlToken.comma =>
          if depth = 0 then
            (SqlParser.splitClauses off 0 ts).map (fun r => ([] :: r.1, r.2))
          else (SqlParser.splitClauses off depth ts).map (SqlParser.prepend t)
      | _ => (SqlParser.splitClauses off depth ts).map (SqlParser.prepend t)

/-- Modelled from the spec: a classified clause of the column list (for `sqlparser.cpp`):
a column definition with its name, its declared type and whether it carries a
column-level `PRIMARY KEY`, or a table-level constraint with the columns its
`PRIMARY KEY (...)` names (none for another constraint). -/
inductive Clause where
  | column (name : QString) (declaredType : QString) (primaryKey : Bool)
  | tableConstraint (primaryKeyColumns : List QString)
deriving DecidableEq, Repr

/-- The keywords that start a table-level constraint. -/
def SqlParser.tableConstraintKeywords : List QString :=
  ["PRIMARY".toList, "UNIQUE".toList, "FOREIGN".toList, "CHECK".toList, "CONSTRAINT".toList]

/-- The keywords that start a column constraint, behind the type of a column. -/
def SqlParser.columnConstraintKeywords : List QString :=
  ["CONSTRAINT".toList, "PRIMARY".toList, "NOT".toList, "NULL".toList, "UNIQUE".toList,
    "CHECK".toList, "DEFAULT".toList, "COLLATE".toList, "REFERENCES".toList,
    "GENERATED".toList, "AS".toList]

/-- Whether the tokens of a column definition behind its name hold the marker
`PRIMARY KEY` at paren depth zero. -/
def SqlParser.hasPrimaryKey (foldCase : Char → Char) : Nat → List SqlToken → Bool
  | _, [] => false
  | depth, t :: rest =>
      match t with
      | SqlToken.lparen => SqlParser.hasPrimaryKey foldCase (depth + 1) rest
      | SqlToken.rparen => SqlParser.hasPrimaryKey foldCase (depth - 1) rest
      | _ =>
          (decide (depth = 0) && t.isKeyword foldCase "PRIMARY".toList &&
            (match rest.head? with
              | some u => u.isKeyword foldCase "KEY".toList
              | none => false))
          || SqlParser.hasPrimaryKey foldCase depth rest

/-- The name an item of a key list starts with, if it starts with one. -/
def SqlParser.firstName : List SqlToken → Option QString
  | SqlToken.word w :: _ => some w
  | SqlToken.quoted w :: _ => some w
  | _ => none

/-- The columns a table-level constraint names as primary key: those of the list of a
`PRIMARY KEY ( ... )`, possibly behind `CONSTRAINT name`; none for another constraint. -/
def SqlParser.primaryKeyColumns (foldCase : Char → Char) (ts : List SqlToken) :
    List QString :=
  let body :=
    match ts with
    | t :: _ :: rest => if t.isKeyword foldCase "CONSTRAINT".toList then rest else ts
    | _ => ts
  match body with
  | t1 :: t2 :: SqlToken.lparen :: rest =>
      if t1.isKeyword foldCase "PRIMARY".toList && t2.isKeyword foldCase "KEY".toList then
        match SqlParser.splitClauses 0 0 rest with
        | Except.ok r => r.1.filterMap SqlParser.firstName
        | Except.error _ => []
      else []
  | _ => []

/-- Modelled from the spec: the classification of one clause (for `sqlparser.cpp`).  A
clause whose first token is one of the table-constraint keywords is a table-level
constraint; otherwise its first token, a name, is the column name, the tokens up to the
first column constraint are the declared type, and the rest are column constraints.  A
clause that starts with no name is `UnrecognizedClause`, with its text. -/
def SqlParser.classify (foldCase : Char → Char) : List SqlToken → Except ParseError Clause
  | [] => Except.error (ParseError.UnrecognizedClause [])
  | t :: rest =>
      if t.isKeywordOf foldCase SqlParser.tableConstraintKeywords then
        Except.ok (Clause.tableConstraint (SqlParser.primaryKeyColumns foldCase (t :: rest)))
      else if t.isName then
        Except.ok (Clause.column t.text
          (SqlToken.render (rest.takeWhile
            (fun u => !u.isKeywordOf foldCase SqlParser.columnConstraintKeywords)))
          (SqlParser.hasPrimaryKey foldCase 0 rest))
      else Except.error (ParseError.UnrecognizedClause (SqlToken.render (t :: rest)))

/-- The tokens behind the first opening parenthesis, if there is one. -/
def SqlParser.afterOpen : List SqlToken → Option (List SqlToken)
  | [] => none
  | SqlToken.lparen :: rest => some rest
  | _ :: rest => SqlParser.afterOpen rest

/-- Modelled from the spec: the head `CREATE [TEMP] TABLE name (` of a table definition
(for `sqlparser.cpp`): the tokens of the column list behind it.  An empty statement, a
missing keyword, a missing name or a missing column list is `Malformed`. -/
def SqlParser.columnList (foldCase : Char → Char) (off : Nat) (ts : List SqlToken) :
    Except ParseError (List SqlToken) :=
  match ts with
  | t1 :: rest =>
      if t1.isKeyword foldCase "CREATE".toList then
        let rest' :=
          match rest with
          | t2 :: r2 =>
              if t2.isKeywordOf foldCase ["TEMP".toList, "TEMPORARY".toList] then r2 else rest
          | [] => rest
        match rest' with
        | t3 :: name :: r3 =>
            if t3.isKeyword foldCase "TABLE".toList && name.isName then
              match SqlParser.afterOpen r3 with
              | some body => Except.ok body
              | none => Except.error (ParseError.Malformed off)
            else Except.error (ParseError.Malformed off)
        | _ => Except.error (ParseError.Malformed off)
      else Except.error (ParseError.Malformed 0)
  | [] => Except.error (ParseError.Malformed 0)

/-- All the clauses of a list classified, or the first error. -/
def SqlParser.classifyAll (foldCase : Char → Char) :
    List (List SqlToken) → Except ParseError (List Clause)
  | [] => Except.ok []
  | c :: cs =>
      match SqlParser.classify foldCase c with
      | Except.error e => Except.error e
      | Except.ok cl => (SqlParser.classifyAll foldCase cs).map (fun rest => cl :: rest)

/-- Modelled from the spec: the clauses of a table definition, classified, in their order
(for `sqlparser.cpp`): the text is scanned, the head is checked, the column list is split
at its top-level commas and every clause is classified. -/
def SqlParser.clauses (Q : QCharClass) (foldCase : Char → Char) (s : QString) :
    Except ParseError (List Clause) :=
  match SqlLexer.scan Q LexMode.normal [] 0 s with
  | Except.error e => Except.error e
  | Except.ok ts =>
      match SqlParser.columnList foldCase s.length ts with
      | Except.error e => Except.error e
      | Except.ok body =>
          match SqlParser.splitClauses s.length 0 body with
          | Except.error e => Except.error e
          | Except.ok r => SqlParser.classifyAll foldCase r.1

/-- The column definitions among the clauses: name, declared type, column-level
`PRIMARY KEY`. -/
def Clause.columns : List Clause → List (QString × QString × Bool)
  | [] => []
  | Clause.column n ty pk :: rest => (n, ty, pk) :: Clause.columns rest
  | Clause.tableConstraint _ :: rest => Clause.columns rest

/-- What may stand between two tokens of a statement: a space, a line comment up to and
with its line end, a block comment. -/
inductive Gap where
  | space (c : Char)
  | lineComment (content : QString)
  | blockComment (content : QString)
deriving DecidableEq, Repr

/-- The text of a gap: the space, `--` with the comment and the line end, the comment
between `/*` and `*/`. -/
def Gap.text : Gap → QString
  | Gap.space c => [c]
  | Gap.lineComment s => '-' :: '-' :: (s ++ ['\n'])
  | Gap.blockComment s => '/' :: '*' :: (s ++ ['*', '/'])

/-- The text of the gaps that follow each other. -/
def Gap.texts : List Gap → QString
  | [] => []
  | g :: gs => g.text ++ Gap.texts gs

/-- Whether a text holds `*/`, the end of a block comment. -/
def QString.hasBlockEnd : QString → Bool
  | [] => false
  | c :: rest => (c == '*' && rest.head? == some '/') || QString.hasBlockEnd rest

/-- Whether a gap is written as SQL wants it: the space is a space, the line comment
holds no line end, the block comment holds no `*/`. -/
def Gap.valid (Q : QCharClass) : Gap → Bool
  | Gap.space c => Q.isSpace c && !Q.isWord c
  | Gap.lineComment s => s.all (fun c => c != '\n')
  | Gap.blockComment s => !QString.hasBlockEnd s

/-- A token as it is written in a statement: the gaps in front of it, the token, and for
a quoted text the quote that opens it. -/
structure Lexeme where
  gaps : List Gap
  token : SqlToken
  quote : Char
deriving DecidableEq, Repr

/-- The quotes of SQLite, each with the quote that closes it: single quotes, double
quotes, backticks, square brackets. -/
def Lexeme.quotes : List (Char × Char) :=
  [(Char.ofNat 39, Char.ofNat 39), ('"', '"'), (Char.ofNat 96, Char.ofNat 96), ('[', ']')]

/-- The quote that closes a text that the quote `quote` opens, if `quote` is a quote. -/
def Lexeme.closingQuote (quote : Char) : Option Char :=
  Lexeme.quotes.lookup quote

/-- The text a token is written as: a quoted text stands between the quote `quote` and
the quote that closes it, any other token is its own text. -/
def SqlToken.source (quote : Char) : SqlToken → QString
  | SqlToken.quoted w => quote :: (w ++ [(Lexeme.closingQuote quote).getD quote])
  | t => t.text

/-- The text of a statement written as the tokens `ls`, each behind its gaps, and the
gaps `trailing` at the end. -/
def Lexeme.layout : List Lexeme → List Gap → QString
  | [], trailing => Gap.texts trailing
  | l :: ls, trailing => Gap.texts l.gaps ++ (l.token.source l.quote ++ Lexeme.layout ls trailing)

/-- Whether a token is written as SQL wants it, `next` being the character that follows
it: a word is a run of word characters that ends there; a quoted text starts with one of
the four quotes and does not hold the quote that closes it; another sign is neither a
word character, a space, a quote nor a parenthesis or comma, and does not start a
comment. -/
def Lexeme.tokenValid (Q : QCharClass) (l : Lexeme) (next : Option Char) : Bool :=
  match l.token with
  | SqlToken.word w =>
      !w.isEmpty && w.all Q.isWord &&
        (match next with
          | some c => !Q.isWord c
          | none => true)
  | SqlToken.quoted w =>
      (match Lexeme.closingQuote l.quote with
        | some close => w.all (fun c => c != close)
        | none => false)
  | SqlToken.symbol c =>
      !Q.isWord c && !Q.isSpace c && (Lexeme.closingQuote c).isNone &&
        c != '(' && c != ')' && c != ',' &&
        !(c == '-' && next == some '-') && !(c == '/' && next == some '*')
  | _ => true

/-- Whether a statement is written as SQL wants it: every gap and every token is. -/
def Lexeme.valid (Q : QCharClass) : List Lexeme → List Gap → Bool
  | [], trailing => trailing.all (Gap.valid Q)
  | l :: ls, trailing =>
      l.gaps.all (Gap.valid Q) && Lexeme.tokenValid Q l (Lexeme.layout ls trailing).head? &&
        Lexeme.valid Q ls trailing

/-- Whether the word `w` spells the keyword `kw`, in any letter case. -/
def QString.spells (foldCase : Char → Char) (w kw : QString) : Bool :=
  decide (w.map foldCase = kw.map foldCase)

/-- The paren depth behind a run of tokens that starts at depth `depth`, if the run can
stand inside a clause: no parenthesis is closed and no comma stands at depth zero. -/
def SqlToken.nesting : Nat → List SqlToken → Option Nat
  | depth, [] => some depth
  | depth, SqlToken.lparen :: ts => SqlToken.nesting (depth + 1) ts
  | depth, SqlToken.rparen :: ts => if depth = 0 then none else SqlToken.nesting (depth - 1) ts
  | depth, SqlToken.comma :: ts => if depth = 0 then none else SqlToken.nesting depth ts
  | depth, _ :: ts => SqlToken.nesting depth ts

/-- Whether a run of tokens can stand inside a clause: its parentheses match and its
commas stand inside parentheses. -/
def SqlToken.balanced (ts : List SqlToken) : Bool :=
  SqlToken.nesting 0 ts == some 0

/-- Whether no unquoted word `PRIMARY`, in any letter case, stands outside parentheses in
a run of tokens that starts at paren depth `depth`. -/
def SqlToken.keyFree (foldCase : Char → Char) : Nat → List SqlToken → Bool
  | _, [] => true
  | depth, SqlToken.lparen :: ts => SqlToken.keyFree foldCase (depth + 1) ts
  | depth, SqlToken.rparen :: ts => SqlToken.keyFree foldCase (depth - 1) ts
  | depth, SqlToken.word w :: ts =>
      !(decide (depth = 0) && QString.spells foldCase w "PRIMARY".toList) &&
        SqlToken.keyFree foldCase depth ts
  | depth, _ :: ts => SqlToken.keyFree foldCase depth ts

/-- The clauses of a list written one behind the other, a comma between two of them. -/
def SqlToken.commaSeparated : List (List SqlToken) → List SqlToken
  | [] => []
  | c :: rest =>
      c ++ (match rest with
        | [] => []
        | _ :: _ => SqlToken.comma :: SqlToken.commaSeparated rest)

/-- What stands behind the name of a column in its definition: the marker `PRIMARY KEY`
(as the words `primary` and `key` spell it), or anything else (the type, another
constraint). -/
inductive ColumnItem where
  | primaryKey (primary key : QString)
  | other (tokens : List SqlToken)
deriving DecidableEq, Repr

/-- The tokens of an item of a column definition. -/
def ColumnItem.tokens : ColumnItem → List SqlToken
  | ColumnItem.primaryKey p k => [SqlToken.word p, SqlToken.word k]
  | ColumnItem.other ts => ts

/-- The tokens of the items of a column definition, one behind the other. -/
def ColumnItem.allTokens : List ColumnItem → List SqlToken
  | [] => []
  | i :: rest => i.tokens ++ ColumnItem.allTokens rest

/-- Whether an item of a column definition is the marker `PRIMARY KEY`. -/
def ColumnItem.isPrimaryKey : ColumnItem → Bool
  | ColumnItem.primaryKey _ _ => true
  | ColumnItem.other _ => false

/-- Whether an item of a column definition is written as SQL wants it: the marker is
spelled `PRIMARY KEY` in any letter case; anything else is a run of tokens that can stand
inside a clause and holds no unquoted word `PRIMARY` outside parentheses. -/
def ColumnItem.wellFormed (foldCase : Char → Char) : ColumnItem → Bool
  | ColumnItem.primaryKey p k =>
      QString.spells foldCase p "PRIMARY".toList && QString.spells foldCase k "KEY".toList
  | ColumnItem.other ts => SqlToken.balanced ts && SqlToken.keyFree foldCase 0 ts

/-- A clause of the column list of a table definition: a column definition (the name
and what stands behind it), a table-level `PRIMARY KEY (columns)` with what follows the
list, or another table-level constraint (`UNIQUE`, `FOREIGN KEY`, `CHECK`).  A column of
a key is its name and what follows the name (`ASC`, `COLLATE ...`).  A table-level
constraint may be named, by `CONSTRAINT name` in front of it. -/
inductive ClauseDef where
  | column (name : SqlToken) (items : List ColumnItem)
  | primaryKey (named : Option (QString × SqlToken)) (primary key : QString)
      (columns : List (SqlToken × List SqlToken)) (after : List SqlToken)
  | other (named : Option (QString × SqlToken)) (keyword : QString) (tokens : List SqlToken)
deriving DecidableEq, Repr

/-- The tokens `CONSTRAINT name` of a named constraint, none for one without a name. -/
def ClauseDef.naming : Option (QString × SqlToken) → List SqlToken
  | none => []
  | some (c, n) => [SqlToken.word c, n]

/-- Whether the naming of a constraint is written as SQL wants it. -/
def ClauseDef.namingWellFormed (foldCase : Char → Char) : Option (QString × SqlToken) → Bool
  | none => true
  | some (c, n) => QString.spells foldCase c "CONSTRAINT".toList && n.isName

/-- The tokens of a clause. -/
def ClauseDef.tokens : ClauseDef → List SqlToken
  | ClauseDef.column n items => n :: ColumnItem.allTokens items
  | ClauseDef.primaryKey named p k cols after =>
      ClauseDef.naming named ++
        SqlToken.word p :: SqlToken.word k :: SqlToken.lparen ::
          (SqlToken.commaSeparated (cols.map (fun c => c.1 :: c.2)) ++ SqlToken.rparen :: after)
  | ClauseDef.other named kw ts => ClauseDef.naming named ++ SqlToken.word kw :: ts

/-- Whether a clause is written as SQL wants it.  The name of a column is a word or a
quoted text, and as a word it is none of the keywords that start a table-level
constraint; the keywords are spelled in any letter case; the columns of a key are names;
what follows them, and the key, can stand inside a clause. -/
def ClauseDef.wellFormed (foldCase : Char → Char) : ClauseDef → Bool
  | ClauseDef.column n items =>
      n.isName &&
        (match n with
          | SqlToken.word w =>
              ["PRIMARY".toList, "UNIQUE".toList, "FOREIGN".toList, "CHECK".toList,
                "CONSTRAINT".toList].all (fun kw => !QString.spells foldCase w kw)
          | _ => true) &&
        items.all (ColumnItem.wellFormed foldCase)
  | ClauseDef.primaryKey named p k cols after =>
      ClauseDef.namingWellFormed foldCase named &&
        QString.spells foldCase p "PRIMARY".toList && QString.spells foldCase k "KEY".toList &&
        cols.all (fun c => c.1.isName && SqlToken.balanced c.2) && SqlToken.balanced after
  | ClauseDef.other named kw ts =>
      ClauseDef.namingWellFormed foldCase named &&
        ["UNIQUE".toList, "FOREIGN".toList, "CHECK".toList].any
          (fun x => QString.spells foldCase kw x) &&
        SqlToken.balanced ts

/-- The names of the columns that the clauses define, in order. -/
def ClauseDef.columnNames : List ClauseDef → List QString
  | [] => []
  | ClauseDef.column n _ :: rest => n.text :: ClauseDef.columnNames rest
  | _ :: rest => ClauseDef.columnNames rest

/-- The names that the table-level `PRIMARY KEY (...)` clauses list. -/
def ClauseDef.keyColumns : List ClauseDef → List QString
  | [] => []
  | ClauseDef.primaryKey _ _ _ cols _ :: rest =>
      cols.map (fun c => c.1.text) ++ ClauseDef.keyColumns rest
  | _ :: rest => ClauseDef.keyColumns rest

/-- The columns that the clauses define, in order, each with its name and with whether it
belongs to the primary key: whether its definition carries the marker `PRIMARY KEY` or
its name, in any letter case, is among `keys`. -/
def ClauseDef.marks (foldCase : Char → Char) (keys : List QString) :
    List ClauseDef → List (QString × Bool)
  | [] => []
  | ClauseDef.column n items :: rest =>
      (n.text, items.any ColumnItem.isPrimaryKey ||
          keys.any (fun x => QString.spells foldCase x n.text))
        :: ClauseDef.marks foldCase keys rest
  | _ :: rest => ClauseDef.marks foldCase keys rest

/-- Whether no name of the list occurs twice, in any letter case. -/
def QString.distinct (foldCase : Char → Char) : List QString → Bool
  | [] => true
  | n :: rest =>
      !rest.any (fun x => QString.spells foldCase x n) && QString.distinct foldCase rest

/-- A table definition `CREATE [TEMP] TABLE name ( clauses ) trailer`: the spelling of its
keywords, its name, the clauses of its column list, and the tokens behind the list. -/
structure TableDef where
  create : QString
  temp : Option QString
  table : QString
  name : SqlToken
  clauses : List ClauseDef
  trailer : List SqlToken
deriving DecidableEq, Repr

/-- The tokens of a table definition. -/
def TableDef.tokens (T : TableDef) : List SqlToken :=
  SqlToken.word T.create ::
    ((match T.temp with
        | some t => [SqlToken.word t]
        | none => []) ++
      SqlToken.word T.table :: T.name :: SqlToken.lparen ::
        (SqlToken.commaSeparated (T.clauses.map ClauseDef.tokens) ++
          SqlToken.rparen :: T.trailer))

/-- Whether a table definition is written as SQL wants it: the keywords are spelled in any
letter case, the name is a word or a quoted text, there is at least one clause, every
clause is well formed, and no two columns have the same name. -/
def TableDef.wellFormed (foldCase : Char → Char) (T : TableDef) : Bool :=
  QString.spells foldCase T.create "CREATE".toList &&
    (match T.temp with
      | some t =>
          QString.spells foldCase t "TEMP".toList || QString.spells foldCase t "TEMPORARY".toList
      | none => true) &&
    QString.spells foldCase T.table "TABLE".toList && T.name.isName &&
    !T.clauses.isEmpty && T.clauses.all (ClauseDef.wellFormed foldCase) &&
    QString.distinct foldCase (ClauseDef.columnNames T.clauses)

/-- The columns of a table definition, in order, each with its name and with whether it
belongs to the primary key: whether its definition carries the marker `PRIMARY KEY` or a
table-level `PRIMARY KEY (...)` clause lists its name. -/
def TableDef.marks (foldCase : Char → Char) (T : TableDef) : List (QString × Bool) :=
  ClauseDef.marks foldCase (ClauseDef.keyColumns T.clauses) T.clauses

theorem toLower_eq_cases (m c : Char) (h : c.toLower = m) :
    c = m ∨ ∃ n, 65 ≤ n ∧ n ≤ 90 ∧ c = Char.ofNat n := by
  by_cases hr : 65 ≤ c.toNat ∧ c.toNat ≤ 90
  · exact Or.inr ⟨c.toNat, hr.1, hr.2, (Char.ofNat_toNat c).symm⟩
  · left
    have hl : c.toLower = c := by
      simp only [Char.toLower]
      rw [if_neg]
      simpa using hr
    rw [hl] at h
    exact h

theorem ciEq_A_iff (c : Char) : ciEq 'A' c = true ↔ c = 'A' ∨ c = 'a' := by
  constructor
  · intro h
    have h0 : ('A' : Char).toLower = 'a' := by decide
    have h1 : c.toLower = 'a' := by
      unfold ciEq at h
      rw [h0] at h
      exact (eq_of_beq h).symm
    rcases toLower_eq_cases _ _ h1 with h2 | ⟨n, hn1, hn2, rfl⟩
    · exact Or.inr h2
    · interval_cases n <;> revert h1 <;> decide
  · rintro (rfl | rfl) <;> decide

theorem ciEq_S_iff (c : Char) : ciEq 'S' c = true ↔ c = 'S' ∨ c = 's' := by
  constructor
  · intro h
    have h0 : ('S' : Char).toLower = 's' := by decide
    have h1 : c.toLower = 's' := by
      unfold ciEq at h
      rw [h0] at h
      exact (eq_of_beq h).symm
    rcases toLower_eq_cases _ _ h1 with h2 | ⟨n, hn1, hn2, rfl⟩
    · exact Or.inr h2
    · interval_cases n <;> revert h1 <;> decide
  · rintro (rfl | rfl) <;> decide

theorem QCharClass.isWord_of_ciEq_A (Q : QCharClass) {c : Char} (h : ciEq 'A' c = true) :
    Q.isWord c = true := by
  rcases (ciEq_A_iff c).1 h with rfl | rfl
  · rw [Q.isWord_ascii _ (by decide)]; decide
  · rw [Q.isWord_ascii _ (by decide)]; decide

theorem QCharClass.isWord_of_ciEq_S (Q : QCharClass) {c : Char} (h : ciEq 'S' c = true) :
    Q.isWord c = true := by
  rcases (ciEq_S_iff c).1 h with rfl | rfl
  · rw [Q.isWord_ascii _ (by decide)]; decide
  · rw [Q.isWord_ascii _ (by decide)]; decide

theorem matchASHere_iff (Q : QCharClass) (prev : Option Char) (c1 c2 : Char) (rest : QString) :
    matchASHere Q prev (c1 :: c2 :: rest) = true ↔
      ciEq 'A' c1 = true ∧ ciEq 'S' c2 = true ∧ prev.any Q.isWord = false ∧
        rest.head?.any Q.isWord = false := by
  simp only [matchASHere, wordBoundary, Bool.and_eq_true, Option.any_some]
  constructor
  · rintro ⟨⟨⟨h1, h2⟩, h3⟩, h4⟩
    have w1 := Q.isWord_of_ciEq_A h2
    have w2 := Q.isWord_of_ciEq_S h3
    rw [w1] at h1
    rw [w2] at h4
    refine ⟨h2, h3, ?_, ?_⟩
    · cases h : prev.any Q.isWord
      · rfl
      · rw [h] at h1; exact absurd h1 (by decide)
    · cases h : rest.head?.any Q.isWord
      · rfl
      · rw [h] at h4; exact absurd h4 (by decide)
  · rintro ⟨h2, h3, h1, h4⟩
    rw [Q.isWord_of_ciEq_A h2, Q.isWord_of_ciEq_S h3, h1, h4]
    exact ⟨⟨⟨by decide, h2⟩, h3⟩, by decide⟩

theorem matchASHere_congr (Q : QCharClass) {p p' : Option Char}
    (h : p.any Q.isWord = p'.any Q.isWord) (s : QString) :
    matchASHere Q p s = matchASHere Q p' s := by
  match s with
  | [] => rfl
  | [_] => rfl
  | c1 :: c2 :: rest => simp only [matchASHere, wordBoundary, h]

theorem indexOfASFrom_congr (Q : QCharClass) {p p' : Option Char}
    (h : p.any Q.isWord = p'.any Q.isWord) (pos : Nat) (s : QString) :
    indexOfASFrom Q p pos s = indexOfASFrom Q p' pos s := by
  cases s with
  | nil => rfl
  | cons c rest => simp only [indexOfASFrom, matchASHere_congr Q h]

theorem indexOfASFrom_shift (Q : QCharClass) (s : QString) :
    ∀ (p : Option Char) (pos : Nat),
      indexOfASFrom Q p pos s = (indexOfASFrom Q p 0 s).map (· + pos) := by
  induction s with
  | nil => intro p pos; rfl
  | cons c rest ih =>
    intro p pos
    simp only [indexOfASFrom]
    split
    · simp
    · rw [ih (some c) (pos + 1), ih (some c) (0 + 1)]
      cases indexOfASFrom Q (some c) 0 rest with
      | none => rfl
      | some k => simp; omega

theorem indexOfASFrom_eq_none_shift (Q : QCharClass) {s : QString} {p p' : Option Char}
    {pos : Nat} (h : indexOfASFrom Q p pos s = none)
    (hp : p.any Q.isWord = p'.any Q.isWord) (pos' : Nat) :
    indexOfASFrom Q p' pos' s = none := by
  rw [indexOfASFrom_shift] at h ⊢
  rw [← indexOfASFrom_congr Q hp]
  cases h' : indexOfASFrom Q p 0 s with
  | none => rfl
  | some k => rw [h'] at h; exact absurd h (by simp)

theorem prevAfter_cons (p : Option Char) (c : Char) (m : QString) :
    prevAfter p (c :: m) = prevAfter (some c) m := by
  cases m with
  | nil => rfl
  | cons d m =>
    simp only [prevAfter, List.getLast?_cons_cons]
    cases h : (d :: m).getLast? with
    | some x => rfl
    | none => simp [List.getLast?_eq_none_iff] at h

theorem matchASHere_append (Q : QCharClass) (p : Option Char) (c : Char) (m : QString)
    (d : Char) (rest : QString) (hd : Q.isWord d = false) :
    matchASHere Q p (c :: m ++ d :: rest) = matchASHere Q p (c :: m) := by
  match m with
  | [] =>
    have : matchASHere Q p [c] = false := rfl
    rw [this]
    cases h : matchASHere Q p ([c] ++ d :: rest) with
    | false => rfl
    | true =>
      have h' := (matchASHere_iff Q p c d rest).1 h
      have := Q.isWord_of_ciEq_S h'.2.1
      rw [hd] at this
      exact absurd this (by decide)
  | [c2] => simp [matchASHere, wordBoundary, hd]
  | c2 :: c3 :: m' => simp [matchASHere]

theorem indexOfASFrom_append (Q : QCharClass) (d : Char) (rest : QString)
    (hd : Q.isWord d = false) (m : QString) :
    ∀ (p : Option Char) (pos : Nat), indexOfASFrom Q p pos m = none →
      indexOfASFrom Q p pos (m ++ d :: rest)
        = indexOfASFrom Q (prevAfter p m) (pos + m.length) (d :: rest) := by
  induction m with
  | nil => intro p pos _; rfl
  | cons c m ih =>
    intro p pos h
    simp only [indexOfASFrom] at h
    split at h
    · exact absurd h (by simp)
    · rename_i hm
      have hm' : ¬ matchASHere Q p (c :: (m ++ d :: rest)) = true := by
        have := matchASHere_append Q p c m d rest hd
        simp only [List.cons_append] at this
        rw [this]; exact hm
      show indexOfASFrom Q p pos (c :: (m ++ d :: rest)) = _
      rw [indexOfASFrom, if_neg hm', ih (some c) (pos + 1) h, prevAfter_cons]
      congr 1
      simp; omega
theorem isAlphanum_lt (c : Char) (h : (c.isAlphanum || c == '_') = true) : c.toNat < 128 := by
  simp only [Char.isAlphanum, Char.isAlpha, Char.isUpper, Char.isLower, Char.isDigit,
    Bool.or_eq_true, Bool.and_eq_true, decide_eq_true_eq, beq_iff_eq] at h
  rcases h with ((⟨h1, h2⟩ | ⟨h1, h2⟩) | ⟨h1, h2⟩) | h
  · have : c.val.toNat ≤ 90 := h2
    exact Nat.lt_of_le_of_lt this (by decide)
  · have : c.val.toNat ≤ 122 := h2
    exact Nat.lt_of_le_of_lt this (by decide)
  · have : c.val.toNat ≤ 57 := h2
    exact Nat.lt_of_le_of_lt this (by decide)
  · subst h; decide

theorem matchASHere_of_not_word (Q : QCharClass) (p : Option Char) {d : Char}
    (hd : Q.isWord d = false) (s : QString) : matchASHere Q p (d :: s) = false := by
  cases s with
  | nil => rfl
  | cons c2 rest =>
    cases h : matchASHere Q p (d :: c2 :: rest) with
    | false => rfl
    | true =>
      have := Q.isWord_of_ciEq_A ((matchASHere_iff Q p d c2 rest).1 h).1
      rw [hd] at this
      exact absurd this (by decide)

theorem indexOfASFrom_none_append (Q : QCharClass) (m1 m2 : QString) {d : Char}
    (hd : Q.isWord d = false) (h1 : indexOfASFrom Q none 0 m1 = none)
    (h2 : indexOfASFrom Q none 0 m2 = none) :
    indexOfASFrom Q none 0 (m1 ++ d :: m2) = none := by
  rw [indexOfASFrom_append Q d m2 hd m1 none 0 h1, indexOfASFrom,
    matchASHere_of_not_word Q _ hd]
  simp only [Bool.false_eq_true, if_false]
  exact indexOfASFrom_eq_none_shift Q h2 (by simp [hd]) _

theorem indexOfAS_separator (Q : QCharClass) {m : QString}
    (hm : indexOfASFrom Q none 0 m = none) {d a z : Char} {post : QString}
    (hd : Q.isWord d = false) (ha : ciEq 'A' a = true) (hz : ciEq 'S' z = true)
    (hpost : post.head?.any Q.isWord = false) :
    indexOfAS Q (m ++ d :: a :: z :: post) = ((m.length + 1 : Nat) : Int) := by
  have hmatch : matchASHere Q (some d) (a :: z :: post) = true :=
    (matchASHere_iff Q (some d) a z post).2 ⟨ha, hz, by simp [hd], hpost⟩
  unfold indexOfAS
  rw [indexOfASFrom_append Q d _ hd m none 0 hm, indexOfASFrom,
    matchASHere_of_not_word Q _ hd]
  simp only [Bool.false_eq_true, if_false]
  rw [indexOfASFrom, if_pos hmatch]
  simp

theorem right_separator (m : QString) (d a z : Char) (post : QString) :
    QString.right (m ++ d :: a :: z :: post)
      (((m ++ d :: a :: z :: post).length : Int) - ((m.length + 1 : Nat) : Int) - 2) = post := by
  have hlen : (m ++ d :: a :: z :: post).length = m.length + 3 + post.length := by
    simp; omega
  have hn : ((m ++ d :: a :: z :: post).length : Int) - ((m.length + 1 : Nat) : Int) - 2
      = (post.length : Int) := by
    rw [hlen]; push_cast; omega
  rw [hn]
  unfold QString.right
  rw [if_neg (by rw [hlen]; push_cast; omega)]
  rw [hlen, Int.toNat_ofNat, Nat.add_sub_cancel]
  have : m.length + 3 = (m ++ [d, a, z]).length := by simp
  rw [this]
  have h2 : m ++ d :: a :: z :: post = (m ++ [d, a, z]) ++ post := by simp
  rw [h2, List.drop_left]

theorem row_separator (Q : QCharClass) (ui : AlterViewUi) {m : QString}
    (hm : indexOfASFrom Q none 0 m = none) {d a z : Char} (post : QString)
    (hd : Q.isWord d = false) (ha : ciEq 'A' a = true) (hz : ciEq 'S' z = true)
    (hpost : post.head?.any Q.isWord = false) :
    AlterViewDialog.row Q ui (m ++ d :: a :: z :: post)
      = { ui with sqlEdit := post.trimmed Q } := by
  unfold AlterViewDialog.row
  simp only [indexOfAS_separator Q hm hd ha hz hpost]
  rw [if_neg (by omega), right_separator]
theorem trimmed_cons_space (Q : QCharClass) {c : Char} (hc : Q.isSpace c = true)
    (s : QString) : QString.trimmed Q (c :: s) = QString.trimmed Q s := by
  simp [QString.trimmed, List.dropWhile_cons, hc]

theorem trimmed_of_outerSpaceFree (Q : QCharClass) {b : QString}
    (hb : b.outerSpaceFree Q = true) : QString.trimmed Q b = b := by
  simp only [QString.outerSpaceFree, Bool.and_eq_true, Bool.not_eq_true'] at hb
  obtain ⟨h1, h2⟩ := hb
  have e1 : b.dropWhile Q.isSpace = b := by
    cases b with
    | nil => rfl
    | cons c b' =>
      simp only [List.head?_cons, Option.any_some] at h1
      simp [List.dropWhile_cons, h1]
  have e2 : b.reverse.dropWhile Q.isSpace = b.reverse := by
    rw [← List.head?_reverse] at h2
    cases hr : b.reverse with
    | nil => rfl
    | cons c r =>
      rw [hr] at h2
      simp only [List.head?_cons, Option.any_some] at h2
      simp [List.dropWhile_cons, h2]
  unfold QString.trimmed
  rw [e1, e2, List.reverse_reverse]

theorem indexOfASFrom_word_run (Q : QCharClass) (w : QString) :
    ∀ (p : Option Char) (pos : Nat), (∀ c ∈ w, Q.isWord c = true) →
      (p.any Q.isWord = true ∨ w.map Char.toLower ≠ ['a', 's']) →
      indexOfASFrom Q p pos w = none := by
  induction w with
  | nil => intro p pos _ _; rfl
  | cons c w ih =>
    intro p pos hw hp
    have hno : matchASHere Q p (c :: w) = false := by
      cases hm : matchASHere Q p (c :: w) with
      | false => rfl
      | true =>
        exfalso
        cases w with
        | nil => exact absurd hm (by simp [matchASHere])
        | cons c2 rest =>
          obtain ⟨ha, hz, hprev, hnext⟩ := (matchASHere_iff Q p c c2 rest).1 hm
          cases rest with
          | cons c3 r =>
            have := hw c3 (by simp)
            simp [this] at hnext
          | nil =>
            rcases hp with hp | hp
            · rw [hprev] at hp; exact absurd hp (by decide)
            · apply hp
              have e1 : ('A' : Char).toLower = 'a' := by decide
              have e2 : ('S' : Char).toLower = 's' := by decide
              unfold ciEq at ha hz
              rw [e1] at ha
              rw [e2] at hz
              simp [← eq_of_beq ha, ← eq_of_beq hz]
    rw [indexOfASFrom, hno]
    simp only [Bool.false_eq_true, if_false]
    exact ih (some c) (pos + 1) (fun x hx => hw x (List.mem_cons_of_mem _ hx))
      (Or.inl (by simp [hw c (by simp)]))

theorem isWord_of_isPlainIdentifier (Q : QCharClass) {name : QString}
    (h : isPlainIdentifier name = true) : ∀ c ∈ name, Q.isWord c = true := by
  intro c hc
  simp only [isPlainIdentifier, Bool.and_eq_true, List.all_eq_true] at h
  have h2 := h.2 c hc
  rw [Q.isWord_ascii c (isAlphanum_lt c h2)]
  exact h2

theorem keyword_cases {kw : QString} (hkw : kw.map Char.toLower = ['a', 's']) :
    ∃ a z, kw = [a, z] ∧ ciEq 'A' a = true ∧ ciEq 'S' z = true := by
  match kw with
  | [] => simp at hkw
  | [_] => simp at hkw
  | _ :: _ :: _ :: _ => simp at hkw
  | [a, z] =>
    simp only [List.map_cons, List.map_nil, List.cons.injEq, and_true] at hkw
    refine ⟨a, z, rfl, ?_, ?_⟩
    · unfold ciEq; rw [hkw.1]; decide
    · unfold ciEq; rw [hkw.2]; decide

theorem prevAfter_none_any (Q : QCharClass) (pre : QString) :
    (prevAfter none pre).any Q.isWord = pre.getLast?.any Q.isWord := by
  unfold prevAfter
  cases pre.getLast? <;> rfl

theorem matchASHere_iff_isWordASAt (Q : QCharClass) (pre : QString) (a z : Char)
    (post : QString) :
    matchASHere Q (prevAfter none pre) (a :: z :: post) = true ↔ IsWordASAt Q pre a z post := by
  rw [matchASHere_iff, prevAfter_none_any, ciEq_A_iff, ciEq_S_iff]
  rfl

theorem indexOfASFrom_some (Q : QCharClass) (s : QString) :
    ∀ (p : Option Char) (pos k : Nat), indexOfASFrom Q p pos s = some k →
      ∃ pre a z post, s = pre ++ a :: z :: post ∧ k = pos + pre.length ∧
        matchASHere Q (prevAfter p pre) (a :: z :: post) = true := by
  induction s with
  | nil => intro p pos k h; simp [indexOfASFrom] at h
  | cons c rest ih =>
    intro p pos k h
    rw [indexOfASFrom] at h
    split at h
    · rename_i hm
      cases rest with
      | nil => simp [matchASHere] at hm
      | cons c2 rest2 =>
        refine ⟨[], c, c2, rest2, rfl, ?_, hm⟩
        simp only [Option.some.injEq] at h
        simp [h]
    · obtain ⟨pre, a, z, post, hs, hk, hm⟩ := ih (some c) (pos + 1) k h
      refine ⟨c :: pre, a, z, post, by rw [hs]; rfl, ?_, ?_⟩
      · simp only [List.length_cons]; omega
      · rw [prevAfter_cons]; exact hm

theorem indexOfASFrom_ne_none (Q : QCharClass) (a z : Char) (post : QString)
    (pre : QString) :
    ∀ (p : Option Char) (pos : Nat),
      matchASHere Q (prevAfter p pre) (a :: z :: post) = true →
      indexOfASFrom Q p pos (pre ++ a :: z :: post) ≠ none := by
  induction pre with
  | nil =>
    intro p pos hm
    have hm' : matchASHere Q p (a :: z :: post) = true := hm
    simp [indexOfASFrom, hm']
  | cons c pre ih =>
    intro p pos hm
    rw [prevAfter_cons] at hm
    show indexOfASFrom Q p pos (c :: (pre ++ a :: z :: post)) ≠ none
    rw [indexOfASFrom]
    split
    · simp
    · exact ih (some c) (pos + 1) hm

theorem indexOfAS_eq_neg_one_iff (Q : QCharClass) (s : QString) :
    indexOfAS Q s = -1 ↔ ¬ HasWordAS Q s := by
  unfold indexOfAS
  constructor
  · intro h ⟨pre, a, z, post, hs, hw⟩
    have hm := (matchASHere_iff_isWordASAt Q pre a z post).2 hw
    have := indexOfASFrom_ne_none Q a z post pre none 0 hm
    rw [← hs] at this
    cases hf : indexOfASFrom Q none 0 s with
    | none => exact this hf
    | some k => rw [hf] at h; simp only at h; omega
  · intro h
    cases hf : indexOfASFrom Q none 0 s with
    | none => rfl
    | some k =>
      exfalso
      obtain ⟨pre, a, z, post, hs, _, hm⟩ := indexOfASFrom_some Q s none 0 k hf
      exact h ⟨pre, a, z, post, hs, (matchASHere_iff_isWordASAt Q pre a z post).1 hm⟩

theorem right_after_match (pre : QString) (a z : Char) (post : QString) :
    QString.right (pre ++ a :: z :: post)
      (((pre ++ a :: z :: post).length : Int) - ((pre.length : Nat) : Int) - 2) = post := by
  have hlen : (pre ++ a :: z :: post).length = pre.length + 2 + post.length := by
    simp; omega
  have hn : ((pre ++ a :: z :: post).length : Int) - ((pre.length : Nat) : Int) - 2
      = (post.length : Int) := by
    rw [hlen]; push_cast; omega
  rw [hn]
  unfold QString.right
  rw [if_neg (by rw [hlen]; push_cast; omega)]
  rw [hlen, Int.toNat_ofNat, Nat.add_sub_cancel]
  have h1 : pre.length + 2 = (pre ++ [a, z]).length := by simp
  have h2 : pre ++ a :: z :: post = (pre ++ [a, z]) ++ post := by simp
  rw [h1, h2, List.drop_left]

theorem row_of_indexOfASFrom (Q : QCharClass) (ui : AlterViewUi) {s : QString} {k : Nat}
    (h : indexOfASFrom Q none 0 s = some k) :
    ∃ pre a z post, s = pre ++ a :: z :: post ∧ k = pre.length ∧
      IsWordASAt Q pre a z post ∧
      AlterViewDialog.row Q ui s = { ui with sqlEdit := QString.trimmed Q post } := by
  obtain ⟨pre, a, z, post, hs, hk, hm⟩ := indexOfASFrom_some Q s none 0 k h
  refine ⟨pre, a, z, post, hs, by omega, (matchASHere_iff_isWordASAt Q pre a z post).1 hm, ?_⟩
  have hk' : k = pre.length := by omega
  unfold AlterViewDialog.row indexOfAS
  rw [h]
  simp only
  rw [if_neg (by omega), hk', hs, right_after_match]

theorem indexOfASFrom_some_append (Q : QCharClass) (d : Char) (rest : QString)
    (hd : Q.isWord d = false) (s : QString) :
    ∀ (p : Option Char) (pos k : Nat), indexOfASFrom Q p pos s = some k →
      indexOfASFrom Q p pos (s ++ d :: rest) = some k := by
  induction s with
  | nil => intro p pos k h; simp [indexOfASFrom] at h
  | cons c s ih =>
    intro p pos k h
    have hm := matchASHere_append Q p c s d rest hd
    simp only [List.cons_append] at hm
    show indexOfASFrom Q p pos (c :: (s ++ d :: rest)) = some k
    rw [indexOfASFrom] at h ⊢
    rw [hm]
    split
    · rename_i h1; rw [if_pos h1] at h; exact h
    · rename_i h1; rw [if_neg h1] at h; exact ih (some c) (pos + 1) k h

theorem trimmed_eq_dropWhile (Q : QCharClass) (l : QString)
    (h : l.getLast?.any Q.isSpace = false) :
    QString.trimmed Q l = l.dropWhile Q.isSpace := by
  induction l with
  | nil => rfl
  | cons c rest ih =>
    by_cases hc : Q.isSpace c = true
    · rw [trimmed_cons_space Q hc, List.dropWhile_cons_of_pos hc]
      apply ih
      cases rest with
      | nil => rfl
      | cons c2 r => rw [List.getLast?_cons_cons] at h; exact h
    · rw [List.dropWhile_cons_of_neg hc]
      unfold QString.trimmed
      rw [List.dropWhile_cons_of_neg hc]
      rw [← List.head?_reverse] at h
      cases hr : (c :: rest).reverse with
      | nil => simp at hr
      | cons x r =>
        rw [hr] at h
        simp only [List.head?_cons, Option.any_some] at h
        rw [List.dropWhile_cons_of_neg (by simp [h]), ← hr, List.reverse_reverse]

theorem trimmed_append_singleton (Q : QCharClass) (l : QString) {d : Char}
    (hd : Q.isSpace d = false) (h : l.getLast?.any Q.isSpace = false) :
    QString.trimmed Q (l ++ [d]) = QString.trimmed Q l ++ [d] := by
  rw [trimmed_eq_dropWhile Q l h, trimmed_eq_dropWhile Q (l ++ [d]) (by simp [hd]),
    List.dropWhile_append]
  split
  · rename_i he
    have : l.dropWhile Q.isSpace = [] := by simpa using he
    rw [this]
    simp [List.dropWhile_cons, hd]
  · rfl

theorem indexOfASFrom_create_view (Q : QCharClass) :
    indexOfASFrom Q none 0 "CREATE VIEW".toList = none := by
  have hsp : Q.isWord ' ' = false := by rw [Q.isWord_ascii _ (by decide)]; decide
  exact indexOfASFrom_none_append Q "CREATE".toList "VIEW".toList hsp
    (indexOfASFrom_word_run Q _ none 0 (isWord_of_isPlainIdentifier Q (by decide))
      (Or.inr (by decide)))
    (indexOfASFrom_word_run Q _ none 0 (isWord_of_isPlainIdentifier Q (by decide))
      (Or.inr (by decide)))

theorem init_singleton (Q : QCharClass) (ui : AlterViewUi) (s : QString) :
    AlterViewDialog.AlterViewDialog Q ui [s] = AlterViewDialog.row Q ui s := rfl

theorem indexOfASFrom_eq_none_iff (Q : QCharClass) (s : QString) :
    indexOfASFrom Q none 0 s = none ↔ ¬ HasWordAS Q s := by
  rw [← indexOfAS_eq_neg_one_iff]
  unfold indexOfAS
  cases indexOfASFrom Q none 0 s with
  | none => simp
  | some k => simp

theorem outerSpaceFree_eq_ascii (Q : QCharClass) (b : QString)
    (h1 : b.head?.all (fun c => decide (c.toNat < 128)) = true)
    (h2 : b.getLast?.all (fun c => decide (c.toNat < 128)) = true) :
    QString.outerSpaceFree Q b = QString.outerSpaceFree QCharClass.ascii b := by
  unfold QString.outerSpaceFree
  have e : ∀ o : Option Char, o.all (fun c => decide (c.toNat < 128)) = true →
      o.any Q.isSpace = o.any QCharClass.ascii.isSpace := by
    intro o ho
    cases o with
    | none => rfl
    | some c =>
      simp only [Option.all_some, decide_eq_true_eq] at ho
      simp only [Option.any_some]
      rw [Q.isSpace_ascii c ho, QCharClass.ascii.isSpace_ascii c ho]
  rw [e _ h1, e _ h2]

/-! ### The constructor of `AlterViewDialog` -/

/-- C1: for a view name that is a plain identifier other than `AS` and a body `b` without
leading or trailing space, the constructor of `AlterViewDialog` puts exactly `b` in the SQL
editor for the stored statement `CREATE VIEW <name> AS <b>`, whatever the letter case of
the separating keyword `kw` and whatever `b` contains (further `AS` words included). -/
theorem AlterViewDialog.init_plain_view (Q : QCharClass) (ui : AlterViewUi)
    (name kw b : QString) (hid : isPlainIdentifier name = true)
    (hname : name.map Char.toLower ≠ ['a', 's'])
    (hkw : kw.map Char.toLower = ['a', 's'])
    (hb : b.outerSpaceFree Q = true) :
    (AlterViewDialog.AlterViewDialog Q ui
      ["CREATE VIEW ".toList ++ name ++ " ".toList ++ kw ++ " ".toList ++ b]).sqlEdit = b := by
  obtain ⟨a, z, rfl, ha, hz⟩ := keyword_cases hkw
  have hsp : Q.isWord ' ' = false := by rw [Q.isWord_ascii _ (by decide)]; decide
  have hspace : Q.isSpace ' ' = true := by rw [Q.isSpace_ascii _ (by decide)]; decide
  have h0 : indexOfASFrom Q none 0 "CREATE VIEW".toList = none :=
    indexOfASFrom_none_append Q "CREATE".toList "VIEW".toList hsp
      (indexOfASFrom_word_run Q _ none 0 (isWord_of_isPlainIdentifier Q (by decide))
        (Or.inr (by decide)))
      (indexOfASFrom_word_run Q _ none 0 (isWord_of_isPlainIdentifier Q (by decide))
        (Or.inr (by decide)))
  have h1 : indexOfASFrom Q none 0 name = none :=
    indexOfASFrom_word_run Q name none 0 (isWord_of_isPlainIdentifier Q hid) (Or.inr hname)
  have hm := indexOfASFrom_none_append Q _ _ hsp h0 h1
  have hrow := row_separator Q ui hm (' ' :: b) hsp ha hz (by simp [hsp])
  have hs : "CREATE VIEW ".toList ++ name ++ " ".toList ++ [a, z] ++ " ".toList ++ b
      = ("CREATE VIEW".toList ++ ' ' :: name) ++ ' ' :: a :: z :: ' ' :: b := by
    simp
  rw [hs]
  simp only [AlterViewDialog.AlterViewDialog, List.foldl_cons, List.foldl_nil, hrow]
  rw [trimmed_cons_space Q hspace, trimmed_of_outerSpaceFree Q hb]

/-- C1 at `CREATE VIEW v AS SELECT 'AS' AS x FROM t`: the editor receives
`SELECT 'AS' AS x FROM t`. -/
theorem AlterViewDialog.init_plain_view_witness :
    isPlainIdentifier "v".toList = true ∧ "v".toList.map Char.toLower ≠ ['a', 's'] ∧
    "AS".toList.map Char.toLower = ['a', 's'] ∧
    QString.outerSpaceFree QCharClass.ascii "SELECT 'AS' AS x FROM t".toList = true ∧
    (AlterViewDialog.AlterViewDialog QCharClass.ascii ⟨[], true⟩
      ["CREATE VIEW ".toList ++ "v".toList ++ " ".toList ++ "AS".toList ++ " ".toList
        ++ "SELECT 'AS' AS x FROM t".toList]).sqlEdit = "SELECT 'AS' AS x FROM t".toList :=
  ⟨by decide, by decide, by decide, by decide,
    AlterViewDialog.init_plain_view QCharClass.ascii ⟨[], true⟩ "v".toList "AS".toList
      "SELECT 'AS' AS x FROM t".toList (by decide) (by decide) (by decide) (by decide)⟩

/-- C2 (the code at the claim's inputs): for `CREATE VIEW "as" AS SELECT 1` the search
stops at the `as` inside the quoted name and the editor receives `" AS SELECT 1`; for
`CREATE VIEW [x as y] AS SELECT 1` it receives `y] AS SELECT 1`.  In neither case is it
the text `SELECT 1` after the separating keyword. -/
theorem AlterViewDialog.init_quoted_name_as (Q : QCharClass) (ui : AlterViewUi) :
    (AlterViewDialog.AlterViewDialog Q ui ["CREATE VIEW \"as\" AS SELECT 1".toList]).sqlEdit
        = "\" AS SELECT 1".toList ∧
    (AlterViewDialog.AlterViewDialog Q ui ["CREATE VIEW [x as y] AS SELECT 1".toList]).sqlEdit
        = "y] AS SELECT 1".toList := by
  have hsp : Q.isWord ' ' = false := by rw [Q.isWord_ascii _ (by decide)]; decide
  have hq : Q.isWord '"' = false := by rw [Q.isWord_ascii _ (by decide)]; decide
  have hbr : Q.isWord '[' = false := by rw [Q.isWord_ascii _ (by decide)]; decide
  have hspace : Q.isSpace ' ' = true := by rw [Q.isSpace_ascii _ (by decide)]; decide
  constructor
  · have hm := indexOfASFrom_none_append Q _ [] hsp (indexOfASFrom_create_view Q) rfl
    have hrow := row_separator Q ui hm "\" AS SELECT 1".toList hq
      (by decide : ciEq 'A' 'a' = true) (by decide : ciEq 'S' 's' = true)
      (by show Q.isWord '"' = false; exact hq)
    rw [init_singleton]
    show (AlterViewDialog.row Q ui
      (("CREATE VIEW".toList ++ [' ']) ++ '"' :: 'a' :: 's' :: "\" AS SELECT 1".toList)).sqlEdit = _
    rw [hrow]
    show QString.trimmed Q "\" AS SELECT 1".toList = _
    rw [trimmed_of_outerSpaceFree]
    rw [outerSpaceFree_eq_ascii Q _ (by decide) (by decide)]
    decide
  · have hx : indexOfASFrom Q none 0 "[x".toList = none :=
      indexOfASFrom_none_append Q [] "x".toList hbr rfl
        (indexOfASFrom_word_run Q _ none 0 (isWord_of_isPlainIdentifier Q (by decide))
          (Or.inr (by decide)))
    have hm := indexOfASFrom_none_append Q _ _ hsp (indexOfASFrom_create_view Q) hx
    have hrow := row_separator Q ui hm " y] AS SELECT 1".toList hsp
      (by decide : ciEq 'A' 'a' = true) (by decide : ciEq 'S' 's' = true)
      (by show Q.isWord ' ' = false; exact hsp)
    rw [init_singleton]
    show (AlterViewDialog.row Q ui
      (("CREATE VIEW".toList ++ ' ' :: "[x".toList) ++ ' ' :: 'a' :: 's'
        :: " y] AS SELECT 1".toList)).sqlEdit = _
    rw [hrow]
    show QString.trimmed Q (' ' :: "y] AS SELECT 1".toList) = _
    rw [trimmed_cons_space Q hspace, trimmed_of_outerSpaceFree]
    rw [outerSpaceFree_eq_ascii Q _ (by decide) (by decide)]
    decide

/-- C4: round trip of alter-without-edit.  When neither the quoted schema nor the quoted
name contains a whole-word `AS` and `t` has no leading or trailing space, the statement
`createButton_clicked` builds from `t`, taken without its final semicolon, is split by the
constructor back into exactly `t`. -/
theorem AlterViewDialog.createSql_round_trip (Q : QCharClass) (ui : AlterViewUi)
    (q : QString → QString) (schema name t : QString)
    (hschema : ¬ HasWordAS Q (q schema)) (hname : ¬ HasWordAS Q (q name))
    (ht : QString.outerSpaceFree Q t = true) :
    (AlterViewDialog.AlterViewDialog Q ui
      [(AlterViewDialog.createButton_clicked q schema name t).dropLast]).sqlEdit = t := by
  have hsp : Q.isWord ' ' = false := by rw [Q.isWord_ascii _ (by decide)]; decide
  have hdot : Q.isWord '.' = false := by rw [Q.isWord_ascii _ (by decide)]; decide
  have hnl : Q.isWord '\n' = false := by rw [Q.isWord_ascii _ (by decide)]; decide
  have hnls : Q.isSpace '\n' = true := by rw [Q.isSpace_ascii _ (by decide)]; decide
  have h1 := (indexOfASFrom_eq_none_iff Q _).2 hschema
  have h2 := (indexOfASFrom_eq_none_iff Q _).2 hname
  have hm := indexOfASFrom_none_append Q _ _ hsp (indexOfASFrom_create_view Q)
    (indexOfASFrom_none_append Q _ _ hdot h1 h2)
  have hrow := row_separator Q ui hm ('\n' :: t) hsp (by decide : ciEq 'A' 'A' = true)
    (by decide : ciEq 'S' 'S' = true) (by simp [hnl])
  have hs : (AlterViewDialog.createButton_clicked q schema name t).dropLast
      = ("CREATE VIEW".toList ++ ' ' :: (q schema ++ '.' :: q name))
          ++ ' ' :: 'A' :: 'S' :: '\n' :: t := by
    unfold AlterViewDialog.createButton_clicked
    have : ";".toList = [';'] := rfl
    rw [this, List.dropLast_concat]
    simp
  rw [hs, init_singleton, hrow]
  show QString.trimmed Q ('\n' :: t) = t
  rw [trimmed_cons_space Q hnls, trimmed_of_outerSpaceFree Q ht]

/-- C4 at schema `main`, view `v`, body `SELECT 1`, with names quoted in double quotes. -/
theorem AlterViewDialog.createSql_round_trip_witness :
    ¬ HasWordAS QCharClass.ascii ((fun s => '"' :: s ++ ['"']) "main".toList) ∧
    ¬ HasWordAS QCharClass.ascii ((fun s => '"' :: s ++ ['"']) "v".toList) ∧
    QString.outerSpaceFree QCharClass.ascii "SELECT 1".toList = true ∧
    (AlterViewDialog.AlterViewDialog QCharClass.ascii ⟨[], true⟩
      [(AlterViewDialog.createButton_clicked (fun s => '"' :: s ++ ['"']) "main".toList "v".toList
        "SELECT 1".toList).dropLast]).sqlEdit = "SELECT 1".toList :=
  ⟨(indexOfASFrom_eq_none_iff _ _).1 (by decide), (indexOfASFrom_eq_none_iff _ _).1 (by decide),
    by decide,
    AlterViewDialog.createSql_round_trip QCharClass.ascii ⟨[], true⟩
      (fun s => '"' :: s ++ ['"']) "main".toList "v".toList "SELECT 1".toList
      ((indexOfASFrom_eq_none_iff _ _).1 (by decide))
      ((indexOfASFrom_eq_none_iff _ _).1 (by decide)) (by decide)⟩

/-- C5 (the code at the claim's input): for `CREATE VIEW v /* as */ AS SELECT 1` the
search stops at the `as` inside the comment and the editor receives `*/ AS SELECT 1`, a
text that starts inside the comment, not `SELECT 1`. -/
theorem AlterViewDialog.init_comment_as (Q : QCharClass) (ui : AlterViewUi) :
    (AlterViewDialog.AlterViewDialog Q ui ["CREATE VIEW v /* as */ AS SELECT 1".toList]).sqlEdit
        = "*/ AS SELECT 1".toList := by
  have hsp : Q.isWord ' ' = false := by rw [Q.isWord_ascii _ (by decide)]; decide
  have hsl : Q.isWord '/' = false := by rw [Q.isWord_ascii _ (by decide)]; decide
  have hst : Q.isWord '*' = false := by rw [Q.isWord_ascii _ (by decide)]; decide
  have hspace : Q.isSpace ' ' = true := by rw [Q.isSpace_ascii _ (by decide)]; decide
  have hc : indexOfASFrom Q none 0 "/*".toList = none :=
    indexOfASFrom_none_append Q [] ['*'] hsl rfl (indexOfASFrom_none_append Q [] [] hst rfl rfl)
  have hv : indexOfASFrom Q none 0 "v /*".toList = none :=
    indexOfASFrom_none_append Q "v".toList _ hsp
      (indexOfASFrom_word_run Q _ none 0 (isWord_of_isPlainIdentifier Q (by decide))
        (Or.inr (by decide))) hc
  have hm := indexOfASFrom_none_append Q _ _ hsp (indexOfASFrom_create_view Q) hv
  have hrow := row_separator Q ui hm " */ AS SELECT 1".toList hsp
    (by decide : ciEq 'A' 'a' = true) (by decide : ciEq 'S' 's' = true)
    (by show Q.isWord ' ' = false; exact hsp)
  rw [init_singleton]
  show (AlterViewDialog.row Q ui
    (("CREATE VIEW".toList ++ ' ' :: "v /*".toList) ++ ' ' :: 'a' :: 's'
      :: " */ AS SELECT 1".toList)).sqlEdit = _
  rw [hrow]
  show QString.trimmed Q (' ' :: "*/ AS SELECT 1".toList) = _
  rw [trimmed_cons_space Q hspace, trimmed_of_outerSpaceFree]
  rw [outerSpaceFree_eq_ascii Q _ (by decide) (by decide)]
  decide

/-- C6: for a stored statement without a whole-word `AS` the constructor leaves the SQL
editor as it was and disables the create button; for a statement with a whole-word `AS` it
sets the editor (to the trimmed text after such an `AS`) and leaves the button as it
was. -/
theorem AlterViewDialog.init_word_as (Q : QCharClass) (ui : AlterViewUi) (s : QString) :
    (¬ HasWordAS Q s →
      AlterViewDialog.AlterViewDialog Q ui [s] = { ui with createButtonEnabled := false }) ∧
    (HasWordAS Q s → ∃ pre a z post, s = pre ++ a :: z :: post ∧ IsWordASAt Q pre a z post ∧
      AlterViewDialog.AlterViewDialog Q ui [s]
        = { ui with sqlEdit := QString.trimmed Q post }) := by
  constructor
  · intro h
    have := (indexOfAS_eq_neg_one_iff Q s).2 h
    rw [init_singleton]
    unfold AlterViewDialog.row
    simp only [this, if_true]
  · intro h
    cases hf : indexOfASFrom Q none 0 s with
    | none => exact absurd h ((indexOfASFrom_eq_none_iff Q s).1 hf)
    | some k =>
      obtain ⟨pre, a, z, post, hs, _, hw, hrow⟩ := row_of_indexOfASFrom Q ui hf
      exact ⟨pre, a, z, post, hs, hw, hrow⟩

/-- C6 at `CREATE VIEW v` (no `AS`: button disabled, editor untouched) and at
`CREATE VIEW v AS SELECT 1` (editor set, button still enabled). -/
theorem AlterViewDialog.init_word_as_witness :
    AlterViewDialog.AlterViewDialog QCharClass.ascii ⟨[], true⟩ ["CREATE VIEW v".toList]
      = ⟨[], false⟩ ∧
    ∃ pre a z post, "CREATE VIEW v AS SELECT 1".toList = pre ++ a :: z :: post ∧
      IsWordASAt QCharClass.ascii pre a z post ∧
      AlterViewDialog.AlterViewDialog QCharClass.ascii ⟨[], true⟩
          ["CREATE VIEW v AS SELECT 1".toList]
        = ⟨QString.trimmed QCharClass.ascii post, true⟩ :=
  ⟨(AlterViewDialog.init_word_as QCharClass.ascii ⟨[], true⟩ "CREATE VIEW v".toList).1
      ((indexOfASFrom_eq_none_iff _ _).1 (by decide)),
    (AlterViewDialog.init_word_as QCharClass.ascii ⟨[], true⟩
      "CREATE VIEW v AS SELECT 1".toList).2
      ⟨"CREATE VIEW v ".toList, 'A', 'S', " SELECT 1".toList, by decide,
        Or.inl rfl, Or.inl rfl, by decide, by decide⟩⟩

/-- C7 fails at `CREATE VIEW v AS SELECT 1;`: the body extracted is `SELECT 1;`, while the
statement without the semicolon gives `SELECT 1`. -/
theorem AlterViewDialog.init_semicolon_counterexample :
    (AlterViewDialog.AlterViewDialog QCharClass.ascii ⟨[], true⟩
      ["CREATE VIEW v AS SELECT 1;".toList]).sqlEdit = "SELECT 1;".toList ∧
    (AlterViewDialog.AlterViewDialog QCharClass.ascii ⟨[], true⟩
      ["CREATE VIEW v AS SELECT 1".toList]).sqlEdit = "SELECT 1".toList ∧
    (AlterViewDialog.AlterViewDialog QCharClass.ascii ⟨[], true⟩
      ["CREATE VIEW v AS SELECT 1;".toList]).sqlEdit ≠
    (AlterViewDialog.AlterViewDialog QCharClass.ascii ⟨[], true⟩
      ["CREATE VIEW v AS SELECT 1".toList]).sqlEdit := by
  decide

/-- C7 as amended: for a statement with a whole-word `AS` that does not end in a space,
the body extracted from the statement followed by a semicolon is the body extracted from
the statement itself followed by that semicolon: the semicolon is kept, as the last
character of the body. -/
theorem AlterViewDialog.init_semicolon_kept (Q : QCharClass) (ui : AlterViewUi)
    (s : QString) (has : HasWordAS Q s) (hend : s.getLast?.any Q.isSpace = false) :
    (AlterViewDialog.AlterViewDialog Q ui [s ++ ";".toList]).sqlEdit
      = (AlterViewDialog.AlterViewDialog Q ui [s]).sqlEdit ++ ";".toList := by
  have hsemi : Q.isWord ';' = false := by rw [Q.isWord_ascii _ (by decide)]; decide
  have hsemi' : Q.isSpace ';' = false := by rw [Q.isSpace_ascii _ (by decide)]; decide
  have e : ";".toList = [';'] := rfl
  rw [e, init_singleton, init_singleton]
  cases hf : indexOfASFrom Q none 0 s with
  | none => exact absurd has ((indexOfASFrom_eq_none_iff Q s).1 hf)
  | some k =>
    have hf' := indexOfASFrom_some_append Q ';' [] hsemi s none 0 k hf
    obtain ⟨pre, a, z, post, hs, hk, _, hrow⟩ := row_of_indexOfASFrom Q ui hf
    obtain ⟨pre', a', z', post', hs', hk', _, hrow'⟩ := row_of_indexOfASFrom Q ui hf'
    rw [hrow, hrow']
    have hlen : pre'.length = pre.length := by omega
    have hs2 : pre' ++ a' :: z' :: post' = pre ++ (a :: z :: (post ++ [';'])) := by
      rw [← hs', hs]; simp
    obtain ⟨hp, hr⟩ := List.append_inj hs2 hlen
    simp only [List.cons.injEq] at hr
    obtain ⟨_, _, hpost⟩ := hr
    show QString.trimmed Q post' = QString.trimmed Q post ++ [';']
    rw [hpost]
    apply trimmed_append_singleton Q post hsemi'
    cases post with
    | nil => rfl
    | cons c r =>
      have : s.getLast? = (c :: r).getLast? := by
        rw [hs]
        have : pre ++ a :: z :: c :: r = (pre ++ [a, z]) ++ (c :: r) := by simp
        rw [this, List.getLast?_append_of_ne_nil _ (by simp)]
      rw [← this]; exact hend

/-- C7 as amended, at `CREATE VIEW v AS SELECT 1`. -/
theorem AlterViewDialog.init_semicolon_kept_witness :
    HasWordAS QCharClass.ascii "CREATE VIEW v AS SELECT 1".toList ∧
    "CREATE VIEW v AS SELECT 1".toList.getLast?.any QCharClass.ascii.isSpace = false ∧
    (AlterViewDialog.AlterViewDialog QCharClass.ascii ⟨[], true⟩
      ["CREATE VIEW v AS SELECT 1".toList ++ ";".toList]).sqlEdit
      = (AlterViewDialog.AlterViewDialog QCharClass.ascii ⟨[], true⟩
          ["CREATE VIEW v AS SELECT 1".toList]).sqlEdit ++ ";".toList :=
  ⟨⟨"CREATE VIEW v ".toList, 'A', 'S', " SELECT 1".toList, by decide,
      Or.inl rfl, Or.inl rfl, by decide, by decide⟩,
    by decide,
    AlterViewDialog.init_semicolon_kept QCharClass.ascii ⟨[], true⟩
      "CREATE VIEW v AS SELECT 1".toList
      ⟨"CREATE VIEW v ".toList, 'A', 'S', " SELECT 1".toList, by decide,
        Or.inl rfl, Or.inl rfl, by decide, by decide⟩
      (by decide)⟩

/-! ### `Database::execSql` -/

/-- C3 (the code at the claim's inputs): `Database::execSql` returns `!query.isActive()`.
For a statement that ran without error it returns false and reports nothing; for one
that ran into an error it returns true, the error having been reported by `runSql`; for
one that was not run it returns true and reports nothing.  The value is the opposite of
the documented "true on success, false if there was an error". -/
theorem Database.execSql_value (db : QString → ExecOutcome) (statement : QString) :
    Database.execSql db statement =
      match (if statement.isEmpty then ExecOutcome.notRun else db statement) with
      | ExecOutcome.done => (false, false)
      | ExecOutcome.failed => (true, true)
      | ExecOutcome.notRun => (true, false) := by
  unfold Database.execSql Database.runSql QSqlQuery.create QSqlQuery.clear
  cases statement.isEmpty
  · cases db statement <;> rfl
  · rfl

/-! ### The column size of `PopulatorDialog` -/

theorem QCharClass.isDigit_open (Q : QCharClass) : Q.isDigit '(' = false := by
  rw [Q.isDigit_ascii _ (by decide)]; decide

theorem QCharClass.isDigit_close (Q : QCharClass) : Q.isDigit ')' = false := by
  rw [Q.isDigit_ascii _ (by decide)]; decide

theorem matchDigitsClose_digits (Q : QCharClass) (post : QString) (ds : QString)
    (hds : ∀ c ∈ ds, Q.isDigit c = true) :
    matchDigitsClose Q (ds ++ ')' :: post) = some (ds ++ [')']) := by
  induction ds with
  | nil => simp [matchDigitsClose, Q.isDigit_close]
  | cons c ds ih =>
    have hc := hds c (by simp)
    have := ih (fun x hx => hds x (List.mem_cons_of_mem _ hx))
    simp [matchDigitsClose, hc, this]

theorem matchDigitsClose_some (Q : QCharClass) (s : QString) :
    ∀ m, matchDigitsClose Q s = some m →
      ∃ ds post, s = ds ++ ')' :: post ∧ (∀ c ∈ ds, Q.isDigit c = true) ∧
        m = ds ++ [')'] := by
  induction s with
  | nil => intro m h; simp [matchDigitsClose] at h
  | cons c rest ih =>
    intro m h
    rw [matchDigitsClose] at h
    split at h
    · rename_i hc
      cases hr : matchDigitsClose Q rest with
      | none => rw [hr] at h; simp at h
      | some m' =>
        rw [hr] at h
        simp only [Option.map_some', Option.some.injEq] at h
        obtain ⟨ds, post, hs, hds, hm⟩ := ih m' hr
        refine ⟨c :: ds, post, by rw [hs]; rfl, ?_, by rw [← h, hm]; rfl⟩
        intro x hx
        rcases List.mem_cons.1 hx with rfl | hx
        · exact hc
        · exact hds x hx
    · split at h
      · rename_i _ hc
        simp only [Option.some.injEq] at h
        exact ⟨[], rest, by rw [hc]; rfl, by simp, by rw [← h, hc]; rfl⟩
      · simp at h

theorem matchDigitsClose_append_open (Q : QCharClass) (rest : QString) (l : QString) :
    matchDigitsClose Q (l ++ '(' :: rest) = matchDigitsClose Q l := by
  induction l with
  | nil => simp [matchDigitsClose, Q.isDigit_open]
  | cons c l ih =>
    show matchDigitsClose Q (c :: (l ++ '(' :: rest)) = matchDigitsClose Q (c :: l)
    rw [matchDigitsClose, matchDigitsClose, ih]

theorem matchSizeHere_append_open (Q : QCharClass) (rest : QString) (c : Char)
    (l : QString) :
    matchSizeHere Q (c :: (l ++ '(' :: rest)) = matchSizeHere Q (c :: l) := by
  cases l with
  | nil => simp [matchSizeHere, Q.isDigit_open]
  | cons d l =>
    show matchSizeHere Q (c :: d :: (l ++ '(' :: rest)) = matchSizeHere Q (c :: d :: l)
    rw [matchSizeHere, matchSizeHere, matchDigitsClose_append_open]

theorem sizeExpSearch_append_open (Q : QCharClass) (rest : QString) (pre : QString) :
    ∀ pos, sizeExpSearch Q pos pre = none →
      sizeExpSearch Q pos (pre ++ '(' :: rest)
        = sizeExpSearch Q (pos + pre.length) ('(' :: rest) := by
  induction pre with
  | nil => intro pos _; rfl
  | cons c pre ih =>
    intro pos h
    rw [sizeExpSearch] at h
    show sizeExpSearch Q pos (c :: (pre ++ '(' :: rest)) = _
    rw [sizeExpSearch, matchSizeHere_append_open]
    cases hm : matchSizeHere Q (c :: pre) with
    | some m => rw [hm] at h; simp at h
    | none =>
      rw [hm] at h
      simp only at h ⊢
      rw [ih (pos + 1) h]
      congr 1
      simp only [List.length_cons]; omega

theorem matchSizeHere_group (Q : QCharClass) (ds post : QString) (hne : ds ≠ [])
    (hds : ∀ c ∈ ds, Q.isDigit c = true) :
    matchSizeHere Q ('(' :: ds ++ ')' :: post) = some ('(' :: ds ++ [')']) := by
  cases ds with
  | nil => exact absurd rfl hne
  | cons d ds =>
    have hd := hds d (by simp)
    have := matchDigitsClose_digits Q post ds (fun x hx => hds x (List.mem_cons_of_mem _ hx))
    simp [matchSizeHere, hd, this]

theorem matchSizeHere_some (Q : QCharClass) (s m : QString)
    (h : matchSizeHere Q s = some m) :
    ∃ ds post, IsSizeGroupAt Q s [] ds post ∧ m = '(' :: ds ++ [')'] := by
  match s with
  | [] => simp [matchSizeHere] at h
  | [_] => simp [matchSizeHere] at h
  | c :: d :: rest =>
    rw [matchSizeHere] at h
    split at h
    · rename_i hc
      cases hr : matchDigitsClose Q rest with
      | none => rw [hr] at h; simp at h
      | some m' =>
        rw [hr] at h
        simp only [Option.map_some', Option.some.injEq] at h
        obtain ⟨ds, post, hs, hds, hm⟩ := matchDigitsClose_some Q rest m' hr
        refine ⟨d :: ds, post, ⟨by rw [hc.1, hs]; rfl, by simp, ?_⟩,
          by rw [← h, hm, hc.1]; rfl⟩
        intro x hx
        rcases List.mem_cons.1 hx with rfl | hx
        · exact hc.2
        · exact hds x hx
    · simp at h

theorem sizeExpSearch_eq_none_iff (Q : QCharClass) (s : QString) :
    ∀ pos, sizeExpSearch Q pos s = none ↔ ¬ HasSizeGroup Q s := by
  induction s with
  | nil =>
    intro pos
    simp only [sizeExpSearch, true_iff]
    rintro ⟨pre, ds, post, h, _⟩
    simp at h
  | cons c rest ih =>
    intro pos
    rw [sizeExpSearch]
    cases hm : matchSizeHere Q (c :: rest) with
    | some m =>
      simp only [reduceCtorEq, false_iff, not_not]
      obtain ⟨ds, post, hg, _⟩ := matchSizeHere_some Q _ m hm
      exact ⟨[], ds, post, hg⟩
    | none =>
      simp only
      rw [ih (pos + 1)]
      constructor
      · rintro hno ⟨pre, ds, post, hs, hne, hds⟩
        cases pre with
        | nil =>
          have heq : c :: rest = '(' :: ds ++ ')' :: post := by simpa using hs
          rw [heq, matchSizeHere_group Q ds post hne hds] at hm
          simp at hm
        | cons x pre =>
          simp only [List.cons_append, List.cons.injEq] at hs
          exact hno ⟨pre, ds, post, by simpa using hs.2, hne, hds⟩
      · rintro hno ⟨pre, ds, post, hs, hne, hds⟩
        exact hno ⟨c :: pre, ds, post, by rw [hs]; simp, hne, hds⟩

theorem sizeExpSearch_first_group (Q : QCharClass) (pre ds post : QString)
    (hpre : ¬ HasSizeGroup Q pre) (hne : ds ≠ []) (hds : ∀ c ∈ ds, Q.isDigit c = true) :
    sizeExpSearch Q 0 (pre ++ '(' :: ds ++ ')' :: post)
      = some (pre.length, '(' :: ds ++ [')']) := by
  have h0 := (sizeExpSearch_eq_none_iff Q pre 0).2 hpre
  have e : pre ++ '(' :: ds ++ ')' :: post = pre ++ '(' :: (ds ++ ')' :: post) := by simp
  rw [e, sizeExpSearch_append_open Q _ pre 0 h0, sizeExpSearch]
  have := matchSizeHere_group Q ds post hne hds
  simp only [List.cons_append] at this
  rw [this]
  simp

theorem remove_parens (Q : QCharClass) (ds : QString) (hds : ∀ c ∈ ds, Q.isDigit c = true) :
    QString.remove (QString.remove ('(' :: ds ++ [')']) '(') ')' = ds := by
  have h1 : ∀ c ∈ ds, c ≠ '(' := by
    rintro c hc rfl
    have := hds _ hc
    rw [Q.isDigit_open] at this
    exact absurd this (by decide)
  have h2 : ∀ c ∈ ds, c ≠ ')' := by
    rintro c hc rfl
    have := hds _ hc
    rw [Q.isDigit_close] at this
    exact absurd this (by decide)
  have f1 : ds.filter (fun c => c != '(') = ds :=
    List.filter_eq_self.2 (fun c hc => by simpa using h1 c hc)
  have f2 : ds.filter (fun c => c != ')') = ds :=
    List.filter_eq_self.2 (fun c hc => by simpa using h2 c hc)
  unfold QString.remove
  simp [List.filter_cons, List.filter_append, f1, f2]

theorem toInt_digits (Q : QCharClass) (ds : QString) (hne : ds ≠ [])
    (hds : ∀ c ∈ ds, Q.isDigit c = true) :
    QString.toInt Q ds =
      if ds.all Char.isDigit && decide (decimalValue ds ≤ 2147483647)
      then ((decimalValue ds : Int), true) else (0, false) := by
  have hfree : QString.outerSpaceFree Q ds = true := by
    unfold QString.outerSpaceFree
    have e : ∀ o : Option Char, (∀ c, o = some c → c ∈ ds) → o.any Q.isSpace = false := by
      intro o ho
      cases o with
      | none => rfl
      | some c => exact Q.isDigit_not_isSpace c (hds c (ho c rfl))
    rw [e _ (fun c hc => List.mem_of_mem_head? hc),
      e _ (fun c hc => List.mem_of_mem_getLast? hc)]
    rfl
  obtain ⟨d, r, rfl⟩ : ∃ d r, ds = d :: r := by
    cases ds with
    | nil => exact absurd rfl hne
    | cons d r => exact ⟨d, r, rfl⟩
  have hd := hds d (by simp)
  have hminus : d ≠ '-' := by
    rintro rfl
    rw [Q.isDigit_ascii _ (by decide)] at hd
    exact absurd hd (by decide)
  have hplus : d ≠ '+' := by
    rintro rfl
    rw [Q.isDigit_ascii _ (by decide)] at hd
    exact absurd hd (by decide)
  unfold QString.toInt
  rw [trimmed_of_outerSpaceFree Q hfree]
  have hnn : (-2147483648 : Int) ≤ (decimalValue (d :: r) : Int) := by
    have : (0 : Int) ≤ (decimalValue (d :: r) : Int) := Int.ofNat_nonneg _
    omega
  simp [hminus, hplus, hnn]

theorem column_size_of_group (Q : QCharClass) (f : FieldInfo) (pre ds post : QString)
    (hg : IsSizeGroupAt Q f.type pre ds post) (hpre : ¬ HasSizeGroup Q pre) :
    (PopulatorDialog.column Q f).size =
      if ds.all Char.isDigit && decide (decimalValue ds ≤ 2147483647)
      then (decimalValue ds : Int) else 10 := by
  obtain ⟨hs, hne, hds⟩ := hg
  have hsearch := sizeExpSearch_first_group Q pre ds post hpre hne hds
  unfold PopulatorDialog.column sizeExpIndexIn
  rw [hs, hsearch]
  simp only
  rw [if_pos (by omega), remove_parens Q ds hds, toInt_digits Q ds hne hds]
  split <;> simp

theorem column_size_of_no_group (Q : QCharClass) (f : FieldInfo)
    (h : ¬ HasSizeGroup Q f.type) : (PopulatorDialog.column Q f).size = 10 := by
  have := (sizeExpSearch_eq_none_iff Q f.type 0).2 h
  unfold PopulatorDialog.column sizeExpIndexIn
  rw [this]
  simp

theorem sizeExpSearch_no_open (Q : QCharClass) (l : QString) (h : ∀ c ∈ l, c ≠ '(') :
    ∀ pos, sizeExpSearch Q pos l = none := by
  induction l with
  | nil => intro pos; rfl
  | cons c l ih =>
    intro pos
    have hc : c ≠ '(' := h c (by simp)
    have hm : matchSizeHere Q (c :: l) = none := by
      cases l with
      | nil => rfl
      | cons d l => simp [matchSizeHere, hc]
    rw [sizeExpSearch, hm]
    exact ih (fun x hx => h x (List.mem_cons_of_mem _ hx)) (pos + 1)

theorem QCharClass.isDigit_of_ascii (Q : QCharClass) {c : Char} (h : c.isDigit = true) :
    Q.isDigit c = true := by
  have hlt : c.toNat < 128 := by
    simp only [Char.isDigit, Bool.and_eq_true, decide_eq_true_eq] at h
    have : c.val.toNat ≤ 57 := h.2
    exact Nat.lt_of_le_of_lt this (by decide)
  rw [Q.isDigit_ascii c hlt, h]

theorem matchDigitsClose_comma (Q : QCharClass) (rest : QString) (ds : QString)
    (hds : ∀ c ∈ ds, Q.isDigit c = true) :
    matchDigitsClose Q (ds ++ ',' :: rest) = none := by
  have hcomma : Q.isDigit ',' = false := by rw [Q.isDigit_ascii _ (by decide)]; decide
  induction ds with
  | nil => simp [matchDigitsClose, hcomma]
  | cons c ds ih =>
    show matchDigitsClose Q (c :: (ds ++ ',' :: rest)) = none
    rw [matchDigitsClose, ih (fun x hx => hds x (List.mem_cons_of_mem _ hx)),
      if_pos (hds c (by simp))]
    rfl

theorem not_hasSizeGroup_two_numbers (Q : QCharClass) (T p s : QString)
    (hT : ¬ HasSizeGroup Q T) (hp : p.all Char.isDigit = true)
    (hs : s.all Char.isDigit = true) :
    ¬ HasSizeGroup Q (T ++ "(".toList ++ p ++ ",".toList ++ s ++ ")".toList) := by
  have hcomma : Q.isDigit ',' = false := by rw [Q.isDigit_ascii _ (by decide)]; decide
  have hpd : ∀ c ∈ p, Q.isDigit c = true := fun c hc =>
    Q.isDigit_of_ascii (List.all_eq_true.1 hp c hc)
  have hsd : ∀ c ∈ s, Q.isDigit c = true := fun c hc =>
    Q.isDigit_of_ascii (List.all_eq_true.1 hs c hc)
  have hnd : ∀ c : Char, Q.isDigit c = true → c ≠ '(' := by
    rintro c hc rfl
    rw [Q.isDigit_open] at hc
    exact absurd hc (by decide)
  have e : T ++ "(".toList ++ p ++ ",".toList ++ s ++ ")".toList
      = T ++ '(' :: (p ++ ',' :: (s ++ [')'])) := by
    have e1 : "(".toList = ['('] := rfl
    have e2 : ",".toList = [','] := rfl
    have e3 : ")".toList = [')'] := rfl
    rw [e1, e2, e3]
    simp
  rw [e, ← sizeExpSearch_eq_none_iff Q _ 0,
    sizeExpSearch_append_open Q _ T 0 ((sizeExpSearch_eq_none_iff Q T 0).2 hT), sizeExpSearch]
  have hm : matchSizeHere Q ('(' :: (p ++ ',' :: (s ++ [')']))) = none := by
    cases p with
    | nil => simp [matchSizeHere, hcomma]
    | cons d p' =>
      show matchSizeHere Q ('(' :: d :: (p' ++ ',' :: (s ++ [')']))) = none
      rw [matchSizeHere,
        matchDigitsClose_comma Q _ p' (fun x hx => hpd x (List.mem_cons_of_mem _ hx))]
      split <;> rfl
  rw [hm]
  apply sizeExpSearch_no_open
  intro c hc
  simp only [List.mem_append, List.mem_cons, List.mem_singleton, List.not_mem_nil,
    or_false] at hc
  rcases hc with hc | rfl | hc | rfl
  · exact hnd c (hpd c hc)
  · decide
  · exact hnd c (hsd c hc)
  · decide

/-- C8: the populator leaves the column's type string as declared.  When `(ds)` is the
first parenthesised group of digits of the type, the column size is the number `ds`
writes if its digits are the ASCII digits and the number is at most 2147483647 (it fits a
32-bit signed integer), and 10 otherwise; for a type without such a group the size is
10. -/
theorem PopulatorDialog.column_size (Q : QCharClass) (f : FieldInfo) :
    (PopulatorDialog.column Q f).type = f.type ∧
    (∀ pre ds post, IsSizeGroupAt Q f.type pre ds post → ¬ HasSizeGroup Q pre →
      (PopulatorDialog.column Q f).size =
        if ds.all Char.isDigit && decide (decimalValue ds ≤ 2147483647)
        then (decimalValue ds : Int) else 10) ∧
    (¬ HasSizeGroup Q f.type → (PopulatorDialog.column Q f).size = 10) :=
  ⟨rfl, fun pre ds post hg hpre => column_size_of_group Q f pre ds post hg hpre,
    column_size_of_no_group Q f⟩

/-- C8 at `VARCHAR(32)` (size 32, type unchanged) and at `INTEGER` (size 10). -/
theorem PopulatorDialog.column_size_witness :
    IsSizeGroupAt QCharClass.ascii "VARCHAR(32)".toList "VARCHAR".toList "32".toList [] ∧
    ¬ HasSizeGroup QCharClass.ascii "VARCHAR".toList ∧
    ¬ HasSizeGroup QCharClass.ascii "INTEGER".toList ∧
    PopulatorDialog.column QCharClass.ascii ⟨"c".toList, "VARCHAR(32)".toList, false⟩
      = ⟨"c".toList, "VARCHAR(32)".toList, false, 32, []⟩ ∧
    (PopulatorDialog.column QCharClass.ascii ⟨"c".toList, "INTEGER".toList, false⟩).size = 10 :=
  ⟨⟨by decide, by decide, by decide⟩,
    (sizeExpSearch_eq_none_iff QCharClass.ascii _ 0).1 (by decide),
    (sizeExpSearch_eq_none_iff QCharClass.ascii _ 0).1 (by decide),
    by
      have h := (PopulatorDialog.column_size QCharClass.ascii
        ⟨"c".toList, "VARCHAR(32)".toList, false⟩).2.1 "VARCHAR".toList "32".toList []
        ⟨by decide, by decide, by decide⟩
        ((sizeExpSearch_eq_none_iff QCharClass.ascii _ 0).1 (by decide))
      have h2 : PopulatorDialog.column QCharClass.ascii
          ⟨"c".toList, "VARCHAR(32)".toList, false⟩
          = ⟨"c".toList, "VARCHAR(32)".toList, false,
              (PopulatorDialog.column QCharClass.ascii
                ⟨"c".toList, "VARCHAR(32)".toList, false⟩).size, []⟩ := rfl
      rw [h2, h]
      rfl,
    (PopulatorDialog.column_size QCharClass.ascii
      ⟨"c".toList, "INTEGER".toList, false⟩).2.2
      ((sizeExpSearch_eq_none_iff QCharClass.ascii _ 0).1 (by decide))⟩

/-- C9 fails at `DECIMAL(5,2)`: the column size is 10, not the first component 5. -/
theorem PopulatorDialog.column_decimal_counterexample :
    (PopulatorDialog.column QCharClass.ascii
      ⟨"price".toList, "DECIMAL(5,2)".toList, false⟩).size = 10 ∧
    (PopulatorDialog.column QCharClass.ascii
      ⟨"price".toList, "DECIMAL(5,2)".toList, false⟩).size ≠ 5 := by
  decide

/-- C9 as amended: for a declared type `T(p,s)` with `p` and `s` decimal numbers, `T`
holding no parenthesised group of digits, the column size is the default 10, whatever `p`
is, and the type string keeps `T(p,s)` verbatim. -/
theorem PopulatorDialog.column_two_numbers (Q : QCharClass) (f : FieldInfo)
    (T p s : QString) (hf : f.type = T ++ "(".toList ++ p ++ ",".toList ++ s ++ ")".toList)
    (hT : ¬ HasSizeGroup Q T) (hp : p.all Char.isDigit = true)
    (hs : s.all Char.isDigit = true) :
    PopulatorDialog.column Q f
      = { name := f.name, type := T ++ "(".toList ++ p ++ ",".toList ++ s ++ ")".toList,
          pk := f.isPartOfPrimaryKey, size := 10, userValue := [] } := by
  have hsize := column_size_of_no_group Q f
    (by rw [hf]; exact not_hasSizeGroup_two_numbers Q T p s hT hp hs)
  have h : PopulatorDialog.column Q f
      = { name := f.name, type := f.type, pk := f.isPartOfPrimaryKey,
          size := (PopulatorDialog.column Q f).size, userValue := [] } := rfl
  rw [h, hsize, hf]

/-- C9 as amended, at `DECIMAL(5,2)`. -/
theorem PopulatorDialog.column_two_numbers_witness :
    ¬ HasSizeGroup QCharClass.ascii "DECIMAL".toList ∧
    PopulatorDialog.column QCharClass.ascii ⟨"price".toList, "DECIMAL(5,2)".toList, false⟩
      = ⟨"price".toList, "DECIMAL(5,2)".toList, false, 10, []⟩ :=
  ⟨(sizeExpSearch_eq_none_iff QCharClass.ascii _ 0).1 (by decide),
    PopulatorDialog.column_two_numbers QCharClass.ascii
      ⟨"price".toList, "DECIMAL(5,2)".toList, false⟩ "DECIMAL".toList "5".toList "2".toList
      (by decide) ((sizeExpSearch_eq_none_iff QCharClass.ascii _ 0).1 (by decide))
      (by decide) (by decide)⟩

/-! ### `Database::hex` -/

set_option maxRecDepth 100000 in
theorem hex_byte (signedChar : Bool) (b : Fin 256) :
    [Database.hexdigit (intAnd (QByteArray.at signedChar b >>> 4) 0xf),
      Database.hexdigit (intAnd (QByteArray.at signedChar b) 0xf)]
      = [upperHexDigit (b.val / 16), upperHexDigit (b.val % 16)] := by
  revert b
  cases signedChar <;> decide

theorem hex_foldl (signedChar : Bool) (val : List (Fin 256)) :
    ∀ acc : QString,
      val.foldl
        (fun ret b =>
          ret ++ [Database.hexdigit (intAnd (QByteArray.at signedChar b >>> 4) 0xf)]
            ++ [Database.hexdigit (intAnd (QByteArray.at signedChar b) 0xf)]) acc
      = acc ++ val.flatMap (fun b => [upperHexDigit (b.val / 16), upperHexDigit (b.val % 16)]) := by
  induction val with
  | nil => intro acc; simp
  | cons b val ih =>
    intro acc
    rw [List.foldl_cons, ih, List.flatMap_cons, ← hex_byte signedChar b]
    simp

theorem hexDigits_length (val : List (Fin 256)) :
    (val.flatMap (fun b => [upperHexDigit (b.val / 16), upperHexDigit (b.val % 16)])).length
      = 2 * val.length := by
  induction val with
  | nil => rfl
  | cons b val ih => rw [List.flatMap_cons, List.length_append, ih]; simp; omega

/-- C10: for every byte array, `Database::hex` is `X'`, then two upper-case hexadecimal
digits per byte, high nibble first, in byte order, then `'`; its length is `2n+3`.  This
holds whether `char` is signed (bytes from 0x80 on are negative) or not. -/
theorem Database.hex_eq_blobLiteral (signedChar : Bool) (val : List (Fin 256)) :
    Database.hex signedChar val = blobLiteral val ∧
      (Database.hex signedChar val).length = 2 * val.length + 3 := by
  have h : Database.hex signedChar val = blobLiteral val := by
    unfold Database.hex blobLiteral
    rw [hex_foldl]
  refine ⟨h, ?_⟩
  rw [h]
  unfold blobLiteral
  have e1 : "X'".toList.length = 2 := rfl
  have e2 : "'".toList.length = 1 := rfl
  rw [List.length_append, List.length_append, e1, e2]
  have := hexDigits_length val
  omega

/-! ### `Database::runSql`, `indexFields`, `getMaster`, `pragma`, `setEnableExtensions` -/

/-- C11: when running a non-empty statement produces an error, `Database::runSql` reports
it and returns a cleared query, whose `isActive()` is false; in every other case it
reports nothing and returns the query as the constructor left it. -/
theorem Database.runSql_cleared_on_error (db : QString → ExecOutcome) (statement : QString) :
    (statement.isEmpty = false → db statement = ExecOutcome.failed →
      (Database.runSql db statement).2 = true ∧
      (Database.runSql db statement).1 = QSqlQuery.clear (QSqlQuery.create db statement) ∧
      (Database.runSql db statement).1.active = false) ∧
    (¬ (statement.isEmpty = false ∧ db statement = ExecOutcome.failed) →
      Database.runSql db statement = (QSqlQuery.create db statement, false)) := by
  constructor
  · intro h1 h2
    simp [Database.runSql, QSqlQuery.create, QSqlQuery.clear, h1, h2]
  · intro h
    unfold Database.runSql QSqlQuery.create
    cases h1 : statement.isEmpty
    · cases h2 : db statement
      · rfl
      · exact absurd ⟨h1, h2⟩ h
      · rfl
    · rfl

/-- C11 at a failing and at a successful statement. -/
theorem Database.runSql_cleared_on_error_witness :
    Database.runSql (fun _ => ExecOutcome.failed) "DELETE FROM missing".toList
      = (⟨false, false⟩, true) ∧
    Database.runSql (fun _ => ExecOutcome.done) "DELETE FROM t".toList
      = (⟨false, true⟩, false) :=
  ⟨by
      have h := (Database.runSql_cleared_on_error (fun _ => ExecOutcome.failed)
        "DELETE FROM missing".toList).1 (by decide) rfl
      exact Prod.ext h.2.1 h.1,
    (Database.runSql_cleared_on_error (fun _ => ExecOutcome.done) "DELETE FROM t".toList).2
      (by decide)⟩

theorem indexFieldsLoop_eq (rows : List (List QString)) :
    ∀ fields, Database.indexFieldsLoop rows fields
      = fields ++ rows.map (fun row => row.getD 2 []) := by
  induction rows with
  | nil => intro fields; simp [Database.indexFieldsLoop]
  | cons row rest ih =>
    intro fields
    simp [Database.indexFieldsLoop, ih, QueryResult.value]

/-- C12: when the `PRAGMA ... INDEX_INFO(...)` query has no error and gives `k` rows,
`Database::indexFields` returns exactly `k` names, the i-th being the third field of the
i-th row, in row order; when the query reports an error it returns the empty list (and
the error is reported). -/
theorem Database.indexFields_rows (q : QString → QString) (db : QString → QueryResult)
    (index schema : QString) (rows : List (List QString)) :
    (db ("PRAGMA ".toList ++ q schema ++ ".INDEX_INFO(".toList ++ q index ++ ");".toList)
        = ⟨false, rows⟩ →
      (Database.indexFields q db index schema).1 = rows.map (fun row => row.getD 2 []) ∧
      (Database.indexFields q db index schema).1.length = rows.length ∧
      ∀ i (h : i < rows.length), (Database.indexFields q db index schema).1[i]?
        = some ((rows.get ⟨i, h⟩).getD 2 [])) ∧
    (db ("PRAGMA ".toList ++ q schema ++ ".INDEX_INFO(".toList ++ q index ++ ");".toList)
        = ⟨true, rows⟩ →
      Database.indexFields q db index schema = ([], true)) := by
  constructor
  · intro h
    have e : (Database.indexFields q db index schema).1
        = rows.map (fun row => row.getD 2 []) := by
      unfold Database.indexFields
      simp only [h, Bool.false_eq_true, if_false, indexFieldsLoop_eq, List.nil_append]
    refine ⟨e, by rw [e, List.length_map], ?_⟩
    intro i hi
    rw [e, List.getElem?_map, List.getElem?_eq_getElem hi]
    rfl
  · intro h
    unfold Database.indexFields
    simp only [h, if_true]

/-- C12 on an index over the columns `a` and `b`. -/
theorem Database.indexFields_rows_witness :
    Database.indexFields id
      (fun _ => ⟨false, [["0".toList, "0".toList, "a".toList],
        ["1".toList, "1".toList, "b".toList]]⟩) "i".toList "main".toList
      = (["a".toList, "b".toList], false) :=
  Prod.ext
    ((Database.indexFields_rows id
      (fun _ => ⟨false, [["0".toList, "0".toList, "a".toList],
        ["1".toList, "1".toList, "b".toList]]⟩) "i".toList "main".toList
      [["0".toList, "0".toList, "a".toList], ["1".toList, "1".toList, "b".toList]]).1 rfl).1
    rfl

theorem compare_eq_zero_iff (foldCase : Char → Char) (a : QString) :
    ∀ b, QString.compare foldCase a b = 0 ↔ a.map foldCase = b.map foldCase := by
  induction a with
  | nil =>
    intro b
    cases b with
    | nil => simp [QString.compare]
    | cons y t => simp [QString.compare]
  | cons x s ih =>
    intro b
    cases b with
    | nil => simp [QString.compare]
    | cons y t =>
      rw [QString.compare]
      by_cases h : foldCase x = foldCase y
      · simp [h, ih t]
      · rw [if_neg h]
        simp only [List.map_cons, List.cons.injEq, h, false_and, iff_false]
        split <;> omega

theorem arg_master (a : QString) :
    QString.arg "%1.sqlite_master".toList a = a ++ ".sqlite_master".toList := by
  have : "%1.sqlite_master".toList = '%' :: '1' :: ".sqlite_master".toList := rfl
  rw [this, QString.arg, if_pos ⟨rfl, rfl⟩]
  congr 1

/-- C13: `Database::getMaster` returns `sqlite_temp_master` exactly when the schema name
equals `temp` after case folding, and otherwise the quoted schema name followed by
`.sqlite_master`. -/
theorem Database.getMaster_temp (foldCase : Char → Char) (q : QString → QString)
    (schema : QString) :
    (Database.getMaster foldCase q schema = "sqlite_temp_master".toList ↔
      schema.map foldCase = "temp".toList.map foldCase) ∧
    (schema.map foldCase ≠ "temp".toList.map foldCase →
      Database.getMaster foldCase q schema = q schema ++ ".sqlite_master".toList) := by
  have hne : q schema ++ ".sqlite_master".toList ≠ "sqlite_temp_master".toList := by
    intro h
    have h2 := congrArg (fun l => l.reverse.take 14) h
    simp only [List.reverse_append] at h2
    have e : (".sqlite_master".toList.reverse ++ (q schema).reverse).take 14
        = ".sqlite_master".toList.reverse := by
      rw [List.take_append_of_le_length (by decide)]
      rfl
    rw [e] at h2
    exact absurd h2 (by decide)
  unfold Database.getMaster
  rw [arg_master]
  by_cases hc : QString.compare foldCase schema "temp".toList = 0
  · have hm := (compare_eq_zero_iff foldCase schema _).1 hc
    rw [if_pos hc]
    exact ⟨⟨fun _ => hm, fun _ => rfl⟩, fun h => absurd hm h⟩
  · have hm : ¬ schema.map foldCase = "temp".toList.map foldCase := fun e =>
      hc ((compare_eq_zero_iff foldCase schema _).2 e)
    rw [if_neg hc]
    exact ⟨⟨fun h => absurd h hne, fun h => absurd h hm⟩, fun _ => rfl⟩

/-- C13 at the schemas `TEMP` and `main`, names quoted in double quotes. -/
theorem Database.getMaster_temp_witness :
    Database.getMaster Char.toLower (fun s => '"' :: s ++ ['"']) "TEMP".toList
      = "sqlite_temp_master".toList ∧
    Database.getMaster Char.toLower (fun s => '"' :: s ++ ['"']) "main".toList
      = "\"main\".sqlite_master".toList :=
  ⟨(Database.getMaster_temp Char.toLower (fun s => '"' :: s ++ ['"']) "TEMP".toList).1.2
      (by decide),
    (Database.getMaster_temp Char.toLower (fun s => '"' :: s ++ ['"']) "main".toList).2
      (by decide)⟩

theorem arg_pragma (name : QString) :
    QString.arg "PRAGMA main.%1;".toList name = "PRAGMA main.".toList ++ name ++ ";".toList := by
  have : "PRAGMA main.%1;".toList = "PRAGMA main.".toList ++ '%' :: '1' :: [';'] := rfl
  rw [this]
  simp [QString.arg]

/-- C15 (the code at the claim's input): on a connection where the query succeeds but
yields no row, `Database::pragma` returns the translation of `Not Set`; with the identity
translation that is the text `Not Set`, not the `n/a` of its documentation.  On a failing
query it returns `error` and reports it, otherwise the first field of the first row. -/
theorem Database.pragma_value (foldCase : Char → Char) (tr : QString → QString)
    (name : QString) (row : List QString) (rows : List (List QString)) :
    Database.pragma foldCase tr (fun _ => ⟨false, []⟩) name = (tr "Not Set".toList, false) ∧
    Database.pragma Char.toLower id (fun _ => ⟨false, []⟩) "no_such_setting".toList
      = ("Not Set".toList, false) ∧
    "Not Set".toList ≠ "n/a".toList ∧
    Database.pragma foldCase tr (fun _ => ⟨true, rows⟩) name = ("error".toList, true) ∧
    Database.pragma foldCase tr (fun _ => ⟨false, row :: rows⟩) name
      = (row.getD 0 [], false) := by
  refine ⟨rfl, by decide, by decide, rfl, rfl⟩

/-- C18 (the code at the claim's input): with a valid driver handle, that is with a
database open, `Database::setEnableExtensions` returns false at once and leaves the
extension-loading flag as it was, whether `sqlite3_enable_load_extension` would succeed
or not; and whatever the handle is, the flag is never changed, since the call is only
reached with a null handle. -/
theorem Database.setEnableExtensions_value (v : DriverHandle) (isSqlite3 : Bool)
    (pointer : Option Nat) (apiOk flag enable : Bool) :
    Database.setEnableExtensions ⟨true, isSqlite3, pointer⟩ apiOk flag enable
      = (false, flag) ∧
    Database.setEnableExtensions ⟨true, true, some 1⟩ true false true = (false, false) ∧
    (Database.setEnableExtensions v apiOk flag enable).2 = flag := by
  refine ⟨rfl, by decide, ?_⟩
  unfold Database.setEnableExtensions Database.sqlite3handle
  cases hv : v.valid <;> simp

/-! ### `ArgsParser` -/

theorem parseDatabase_true (fileExists : QString → Bool) (arg : QString)
    (st st' : ArgsParser) (h : ArgsParser.parseDatabase fileExists arg st = (true, st')) :
    st' = { st with m_lastDB := some arg } ∧ fileExists arg = true ∧
      arg ≠ ARG_VERSION ∧ arg ≠ ARG_VERSION_SHORT ∧ arg ≠ ARG_HELP ∧
      arg ≠ ARG_HELP_SHORT ∧
      arg ≠ ARG_AVAILLANG ∧ arg ≠ ARG_AVAILLANG_SHORT := by
  unfold ArgsParser.parseDatabase at h
  split at h
  · simp at h
  · split at h
    · simp at h
    · split at h
      · simp at h
      · rename_i h1 h2 h3
        split at h
        · simp at h
        · rename_i h4
          simp only [Prod.mk.injEq, true_and] at h
          simp only [Bool.not_eq_true', Bool.not_eq_false] at h4
          push_neg at h1 h2 h3
          exact ⟨h.symm, h4, h1.1, h1.2, h2.1, h2.2, h3.1, h3.2⟩

/-- What `parseArgs` leaves behind when it returns true: the arguments are options with
their values, then possibly a database file; the language is the value of the last
language option, the execute flag is set by an execute option, and the database is the
one given. -/
theorem parseArgs_true (fileExists : QString → Bool) :
    ∀ (n : Nat) (args : List QString), args.length ≤ n → ∀ (st st' : ArgsParser),
      ArgsParser.parseArgs fileExists args st = (true, st') →
      ∃ pairs rest, IsCommandLine fileExists args pairs rest ∧
        st'.m_execute = (st.m_execute || pairs.any (fun p => decide (p.1 = ARG_EXECUTE))) ∧
        st'.m_lastDB = (match rest with
          | [] => st.m_lastDB
          | db :: _ => some db) ∧
        st'.m_locale = (match (pairs.filter
            (fun p => decide (p.1 = ARG_LANG ∨ p.1 = ARG_LANG_SHORT))).getLast? with
          | some p => p.2
          | none => st.m_locale) ∧
        st'.m_localeList = st.m_localeList := by
  intro n
  induction n with
  | zero =>
    intro args hlen st st' h
    have : args = [] := List.eq_nil_of_length_eq_zero (by omega)
    subst this
    simp only [ArgsParser.parseArgs, Prod.mk.injEq, true_and] at h
    subst h
    exact ⟨[], [], ⟨rfl, by simp, Or.inl rfl⟩, by simp, rfl, rfl, rfl⟩
  | succ n ih =>
    intro args hlen st st' h
    match args, hlen, h with
    | [], _, h =>
      simp only [ArgsParser.parseArgs, Prod.mk.injEq, true_and] at h
      subst h
      exact ⟨[], [], ⟨rfl, by simp, Or.inl rfl⟩, by simp, rfl, rfl, rfl⟩
    | [arg], _, h =>
      rw [ArgsParser.parseArgs] at h
      split at h
      · simp at h
      · rename_i hopt
        push_neg at hopt
        obtain ⟨hst, hex, h1, h2, h3, h4, h5, h6⟩ := parseDatabase_true fileExists arg st st' h
        subst hst
        refine ⟨[], [arg], ⟨rfl, by simp, Or.inr ⟨arg, [], rfl, ?_, hex⟩⟩, by simp, rfl, rfl,
          rfl⟩
        simp only [allOptions, List.mem_cons, List.mem_singleton, List.not_mem_nil, or_false,
          not_or]
        exact ⟨hopt.1, hopt.2.1, hopt.2.2.1, hopt.2.2.2, h1, h2, h3, h4, h5, h6⟩
    | arg :: value :: rest, hlen, h =>
      rw [ArgsParser.parseArgs] at h
      split at h
      · rename_i hlang
        obtain ⟨pairs, rest', ⟨hargs, hkeys, hrest⟩, he, hdb, hloc, hlist⟩ :=
          ih rest (by simp at hlen; omega) _ st' h
        refine ⟨(arg, value) :: pairs, rest', ⟨?_, ?_, hrest⟩, ?_, hdb, ?_, hlist⟩
        · rw [hargs]; simp
        · intro p hp
          rcases List.mem_cons.1 hp with rfl | hp
          · rcases hlang with h | h <;> simp [valueOptions, h]
          · exact hkeys p hp
        · have hx : arg ≠ ARG_EXECUTE := by
            rcases hlang with h | h <;> rw [h] <;> decide
          simp [he, hx]
        · rw [hloc]
          have hd : decide (arg = ARG_LANG ∨ arg = ARG_LANG_SHORT) = true := by simpa using hlang
          rw [List.filter_cons_of_pos (by simpa using hlang)]
          cases hf : (pairs.filter
              (fun p => decide (p.1 = ARG_LANG ∨ p.1 = ARG_LANG_SHORT))) with
          | nil => simp
          | cons x xs =>
            rw [List.getLast?_cons_cons, List.getLast?_eq_getLast (x :: xs) (by simp)]
      · rename_i hlang
        split at h
        · rename_i hscript
          split at h
          · simp at h
          · rename_i hex
            obtain ⟨pairs, rest', ⟨hargs, hkeys, hrest⟩, he, hdb, hloc, hlist⟩ :=
              ih rest (by simp at hlen; omega) _ st' h
            refine ⟨(arg, value) :: pairs, rest', ⟨?_, ?_, hrest⟩, ?_, hdb, ?_, hlist⟩
            · rw [hargs]; simp
            · intro p hp
              rcases List.mem_cons.1 hp with rfl | hp
              · rcases hscript with h | h <;> simp [valueOptions, h]
              · exact hkeys p hp
            · rw [he]
              by_cases hx : arg = ARG_EXECUTE <;> simp [hx]
            · rw [hloc, List.filter_cons_of_neg (by simpa using hlang)]
        · rename_i hscript
          push_neg at hlang hscript
          obtain ⟨hst, hex, h1, h2, h3, h4, h5, h6⟩ :=
            parseDatabase_true fileExists arg st st' h
          subst hst
          refine ⟨[], arg :: value :: rest,
            ⟨rfl, by simp, Or.inr ⟨arg, value :: rest, rfl, ?_, hex⟩⟩, by simp, rfl, rfl,
            rfl⟩
          simp only [allOptions, List.mem_cons, List.mem_singleton, List.not_mem_nil,
            or_false, not_or]
          exact ⟨hlang.1, hlang.2, hscript.1, hscript.2, h1, h2, h3, h4, h5, h6⟩
theorem isCommandLine_unique (fileExists : QString → Bool) (pairs : List (QString × QString)) :
    ∀ (args rest : List QString) (pairs' : List (QString × QString)) (rest' : List QString),
      IsCommandLine fileExists args pairs rest → IsCommandLine fileExists args pairs' rest' →
      pairs = pairs' ∧ rest = rest' := by
  have hsub : ∀ x ∈ valueOptions, x ∈ allOptions := by
    intro x hx
    simp only [valueOptions, List.mem_cons, List.mem_singleton, List.not_mem_nil,
      or_false] at hx
    simp only [allOptions, List.mem_cons, List.mem_singleton, List.not_mem_nil, or_false]
    tauto
  induction pairs with
  | nil =>
    intro args rest pairs' rest' h h'
    obtain ⟨ha, _, hr⟩ := h
    obtain ⟨ha', hk', hr'⟩ := h'
    simp only [List.flatMap_nil, List.nil_append] at ha
    subst ha
    cases pairs' with
    | nil => exact ⟨rfl, by simpa using ha'⟩
    | cons p ps =>
      exfalso
      simp only [List.flatMap_cons, List.cons_append, List.nil_append] at ha'
      rcases hr with hr | ⟨db, tail, hr, hdb, _⟩
      · rw [hr] at ha'; simp at ha'
      · rw [hr] at ha'
        simp only [List.cons.injEq] at ha'
        exact hdb (ha'.1 ▸ hsub _ (hk' p (by simp)))
  | cons p ps ih =>
    intro args rest pairs' rest' h h'
    obtain ⟨ha, hk, hr⟩ := h
    obtain ⟨ha', hk', hr'⟩ := h'
    simp only [List.flatMap_cons, List.cons_append, List.nil_append] at ha
    cases pairs' with
    | nil =>
      exfalso
      simp only [List.flatMap_nil, List.nil_append] at ha'
      rcases hr' with hr' | ⟨db, tail, hr', hdb, _⟩
      · rw [hr', ha] at ha'; simp at ha'
      · rw [hr', ha] at ha'
        simp only [List.cons.injEq] at ha'
        exact hdb (ha'.1 ▸ hsub _ (hk p (by simp)))
    | cons p' ps' =>
      simp only [List.flatMap_cons, List.cons_append, List.nil_append] at ha'
      rw [ha] at ha'
      simp only [List.cons.injEq] at ha'
      obtain ⟨h1, h2, h3⟩ := ha'
      have := ih (ps.flatMap (fun p => [p.1, p.2]) ++ rest) rest ps' rest'
        ⟨rfl, fun x hx => hk x (List.mem_cons_of_mem _ hx), hr⟩
        ⟨h3, fun x hx => hk' x (List.mem_cons_of_mem _ hx), hr'⟩
      exact ⟨by rw [this.1, Prod.ext h1 h2], this.2⟩

theorem left_length_le (s : QString) : (QString.left s 2).length ≤ 2 := by
  unfold QString.left
  split
  · rename_i h
    rcases h with h | h
    · omega
    · omega
  · rw [List.length_take]
    exact Nat.min_le_left _ _

theorem executeScript_fileToOpen (fileExists : QString → Bool) (p : Preferences)
    (st : ArgsParser) :
    ArgsParser.executeScript (ArgsParser.fileToOpen fileExists p st).2
      = ArgsParser.executeScript st := by
  unfold ArgsParser.fileToOpen ArgsParser.executeScript
  cases hn : st.m_lastDB with
  | some db => simp [hn]
  | none =>
    simp only [Option.isNone_none, if_true]
    split <;> simp

/-- C16: when `parseArgs` has returned true, the command line reads as options with their
values followed by nothing or by a database file, and `executeScript()` is true exactly
when one of the options processed is `-x` and a database file was given on the command
line.  Calling `fileToOpen()` first does not change what `executeScript()` returns, also
when `fileToOpen()` takes the database from the preferences. -/
theorem ArgsParser.executeScript_iff (fileExists : QString → Bool) (p : Preferences)
    (localeList : QMap QString) (args : List QString) (st : ArgsParser)
    (h : ArgsParser.parseArgs fileExists args (ArgsParser.new localeList) = (true, st)) :
    (∃ pairs rest, IsCommandLine fileExists args pairs rest) ∧
    (∀ pairs rest, IsCommandLine fileExists args pairs rest →
      (ArgsParser.executeScript st = true ↔
        (∃ o ∈ pairs, o.1 = ARG_EXECUTE) ∧ rest ≠ [])) ∧
    ArgsParser.executeScript (ArgsParser.fileToOpen fileExists p st).2
      = ArgsParser.executeScript st := by
  obtain ⟨pairs, rest, hcl, he, hdb, _, _⟩ :=
    parseArgs_true fileExists args.length args (Nat.le_refl _) _ st h
  refine ⟨⟨pairs, rest, hcl⟩, ?_, ?_⟩
  · intro pairs' rest' hcl'
    obtain ⟨rfl, rfl⟩ := isCommandLine_unique fileExists pairs args rest pairs' rest' hcl hcl'
    unfold ArgsParser.executeScript
    rw [he, hdb]
    cases rest with
    | nil => simp [ArgsParser.new]
    | cons db tail => simp [ArgsParser.new]
  · exact executeScript_fileToOpen fileExists p st

/-- C16 at `-x run.sql data.db` (script executed) and at `-x run.sql` with a last database
in the preferences (script not executed, in either order of the calls). -/
theorem ArgsParser.executeScript_iff_witness :
    ArgsParser.executeScript
      (ArgsParser.parseArgs (fun _ => true) ["-x".toList, "run.sql".toList, "data.db".toList]
        (ArgsParser.new [])).2 = true ∧
    ArgsParser.executeScript
      (ArgsParser.parseArgs (fun _ => true) ["-x".toList, "run.sql".toList]
        (ArgsParser.new [])).2 = false ∧
    ArgsParser.executeScript
      (ArgsParser.fileToOpen (fun _ => true) ⟨0, true, "last.db".toList⟩
        (ArgsParser.parseArgs (fun _ => true) ["-x".toList, "run.sql".toList]
          (ArgsParser.new [])).2).2 = false :=
  ⟨((ArgsParser.executeScript_iff (fun _ => true) ⟨0, true, "last.db".toList⟩ []
      ["-x".toList, "run.sql".toList, "data.db".toList] _ rfl).2.1
      [("-x".toList, "run.sql".toList)] ["data.db".toList]
      ⟨rfl, by decide, Or.inr ⟨"data.db".toList, [], rfl, by decide, rfl⟩⟩).2
      ⟨⟨_, List.mem_singleton.2 rfl, rfl⟩, by simp⟩,
    by decide, by decide⟩

theorem lookup_index {V : Type} (m : QMap V) (k : Int) (dflt : V) :
    (QMap.index m k dflt).1 = (QMap.lookup m k).getD dflt := by
  unfold QMap.index
  cases QMap.lookup m k <;> rfl

/-- C17: `localeCode` takes the language kept from `--lang`/`-l` when it is not empty,
otherwise the entry of the translation list at the index `GUItranslator` when that is
not 0, otherwise the system locale; the code it returns has at most 2 characters.  The
language kept by a successful `parseArgs` is the value of the last `--lang`/`-l` option
of the command line (empty without one). -/
theorem ArgsParser.localeCode_precedence (localeName : QString → QString)
    (systemName : QString) (p : Preferences) (st : ArgsParser) :
    (st.m_locale ≠ [] → (ArgsParser.localeCode localeName systemName p st).1
      = QString.left (localeName st.m_locale) 2) ∧
    (st.m_locale = [] → p.GUItranslator ≠ 0 →
      (ArgsParser.localeCode localeName systemName p st).1
        = QString.left ((QMap.lookup st.m_localeList p.GUItranslator).getD []) 2) ∧
    (st.m_locale = [] → p.GUItranslator = 0 →
      (ArgsParser.localeCode localeName systemName p st).1 = QString.left systemName 2) ∧
    (ArgsParser.localeCode localeName systemName p st).1.length ≤ 2 ∧
    (∀ fileExists localeList args pairs rest,
      ArgsParser.parseArgs fileExists args (ArgsParser.new localeList) = (true, st) →
      IsCommandLine fileExists args pairs rest →
      st.m_localeList = localeList ∧
      st.m_locale = match (pairs.filter
          (fun o => decide (o.1 = ARG_LANG ∨ o.1 = ARG_LANG_SHORT))).getLast? with
        | some o => o.2
        | none => []) := by
  refine ⟨?_, ?_, ?_, ?_, ?_⟩
  · intro h
    unfold ArgsParser.localeCode
    have : st.m_locale.isEmpty = false := by
      cases hl : st.m_locale with
      | nil => exact absurd hl h
      | cons c r => rfl
    simp [this]
  · intro h hg
    unfold ArgsParser.localeCode
    simp [h, hg, lookup_index]
  · intro h hg
    unfold ArgsParser.localeCode
    simp [h, hg]
  · unfold ArgsParser.localeCode
    split
    · exact left_length_le _
    · split
      · exact left_length_le _
      · exact left_length_le _
  · intro fileExists localeList args pairs rest h hcl
    obtain ⟨pairs', rest', hcl', _, _, hloc, hlist⟩ :=
      parseArgs_true fileExists args.length args (Nat.le_refl _) _ st h
    obtain ⟨rfl, rfl⟩ := isCommandLine_unique fileExists pairs args rest pairs' rest' hcl hcl'
    exact ⟨hlist, hloc⟩

/-- C17 at `--lang cs`, at the preference 2 with the translations `cs`, `de_DE`, and at
the system locale `en_US`. -/
theorem ArgsParser.localeCode_precedence_witness :
    (ArgsParser.localeCode (fun s => s ++ "_CZ".toList) "en_US".toList ⟨2, false, []⟩
      ⟨"cs".toList, [(1, "cs".toList), (2, "de_DE".toList)], none, none, false⟩).1
      = "cs".toList ∧
    (ArgsParser.localeCode (fun s => s ++ "_CZ".toList) "en_US".toList ⟨2, false, []⟩
      ⟨[], [(1, "cs".toList), (2, "de_DE".toList)], none, none, false⟩).1 = "de".toList ∧
    (ArgsParser.localeCode (fun s => s ++ "_CZ".toList) "en_US".toList ⟨0, false, []⟩
      ⟨[], [(1, "cs".toList), (2, "de_DE".toList)], none, none, false⟩).1 = "en".toList :=
  ⟨(ArgsParser.localeCode_precedence (fun s => s ++ "_CZ".toList) "en_US".toList
      ⟨2, false, []⟩
      ⟨"cs".toList, [(1, "cs".toList), (2, "de_DE".toList)], none, none, false⟩).1
      (by decide),
    (ArgsParser.localeCode_precedence (fun s => s ++ "_CZ".toList) "en_US".toList
      ⟨2, false, []⟩
      ⟨[], [(1, "cs".toList), (2, "de_DE".toList)], none, none, false⟩).2.1 rfl (by decide),
    (ArgsParser.localeCode_precedence (fun s => s ++ "_CZ".toList) "en_US".toList
      ⟨0, false, []⟩
      ⟨[], [(1, "cs".toList), (2, "de_DE".toList)], none, none, false⟩).2.2.1 rfl rfl⟩

/-! ### `DataViewer::copyHandler` -/

theorem mem_keys_insert {V : Type} (k : Int) (v : V) (m : QMap V) (k' : Int) :
    k' ∈ (QMap.insert m k v).map Prod.fst ↔ k' = k ∨ k' ∈ m.map Prod.fst := by
  induction m with
  | nil => simp [QMap.insert]
  | cons e rest ih =>
    obtain ⟨ke, ve⟩ := e
    unfold QMap.insert
    split
    · simp
    · split
      · rename_i h
        subst h
        simp
      · simp only [List.map_cons, List.mem_cons, ih]
        tauto

theorem sorted_keys_insert {V : Type} (k : Int) (v : V) (m : QMap V)
    (h : (m.map Prod.fst).Sorted (fun a b => a < b)) :
    ((QMap.insert m k v).map Prod.fst).Sorted (fun a b => a < b) := by
  induction m with
  | nil => simp [QMap.insert]
  | cons e rest ih =>
    obtain ⟨ke, ve⟩ := e
    simp only [List.map_cons, List.sorted_cons] at h
    unfold QMap.insert
    split
    · rename_i hlt
      simp only [List.map_cons, List.sorted_cons, List.mem_cons]
      refine ⟨?_, h⟩
      rintro b (rfl | hb)
      · exact hlt
      · exact lt_trans hlt (h.1 b hb)
    · split
      · rename_i _ heq
        subst heq
        simpa using h
      · rename_i hlt hne
        simp only [List.map_cons, List.sorted_cons]
        refine ⟨?_, ih h.2⟩
        intro b hb
        rcases (mem_keys_insert k v rest b).1 hb with rfl | hb
        · omega
        · exact h.1 b hb

theorem mem_insert {V : Type} (k : Int) (v : V) (m : QMap V) (e : Int × V)
    (h : e ∈ QMap.insert m k v) : e = (k, v) ∨ e ∈ m := by
  induction m with
  | nil => simpa [QMap.insert] using h
  | cons x rest ih =>
    obtain ⟨kx, vx⟩ := x
    unfold QMap.insert at h
    split at h
    · simpa using h
    · split at h
      · rcases List.mem_cons.1 h with h | h
        · exact Or.inl h
        · exact Or.inr (List.mem_cons_of_mem _ h)
      · rcases List.mem_cons.1 h with h | h
        · exact Or.inr (by rw [h]; exact List.mem_cons_self _ _)
        · rcases ih h with h | h
          · exact Or.inl h
          · exact Or.inr (List.mem_cons_of_mem _ h)

theorem mem_insert_self {V : Type} (k : Int) (v : V) (m : QMap V) :
    (k, v) ∈ QMap.insert m k v := by
  induction m with
  | nil => simp [QMap.insert]
  | cons x rest ih =>
    obtain ⟨kx, vx⟩ := x
    unfold QMap.insert
    split
    · simp
    · split
      · simp
      · exact List.mem_cons_of_mem _ ih

theorem value_unique {V : Type} (m : QMap V) (h : (m.map Prod.fst).Sorted (fun a b => a < b))
    (k : Int) (a b : V) (ha : (k, a) ∈ m) (hb : (k, b) ∈ m) : a = b := by
  induction m with
  | nil => simp at ha
  | cons x rest ih =>
    simp only [List.map_cons, List.sorted_cons] at h
    rcases List.mem_cons.1 ha with ha | ha <;> rcases List.mem_cons.1 hb with hb | hb
    · rw [← ha] at hb
      exact (Prod.mk.inj hb).2.symm
    · exfalso
      have := h.1 k (List.mem_map.2 ⟨(k, b), hb, rfl⟩)
      rw [← ha] at this
      simp at this
    · exfalso
      have := h.1 k (List.mem_map.2 ⟨(k, a), ha, rfl⟩)
      rw [← hb] at this
      simp at this
    · exact ih h.2 ha hb

theorem lookup_some_mem {V : Type} (m : QMap V) (k : Int) (v : V)
    (h : QMap.lookup m k = some v) : (k, v) ∈ m := by
  induction m with
  | nil => simp [QMap.lookup] at h
  | cons x rest ih =>
    obtain ⟨kx, vx⟩ := x
    unfold QMap.lookup at h
    split at h
    · rename_i hk
      simp only [Option.some.injEq] at h
      rw [hk, h]
      exact List.mem_cons_self _ _
    · exact List.mem_cons_of_mem _ (ih h)

theorem lookup_none_not_mem {V : Type} (m : QMap V) (k : Int)
    (h : QMap.lookup m k = none) : k ∉ m.map Prod.fst := by
  induction m with
  | nil => simp
  | cons x rest ih =>
    obtain ⟨kx, vx⟩ := x
    unfold QMap.lookup at h
    split at h
    · simp at h
    · rename_i hk
      simp only [List.map_cons, List.mem_cons, not_or]
      exact ⟨hk, ih h⟩

theorem insert_insert {V : Type} (k : Int) (a b : V) (m : QMap V) :
    QMap.insert (QMap.insert m k a) k b = QMap.insert m k b := by
  induction m with
  | nil => simp [QMap.insert]
  | cons x rest ih =>
    obtain ⟨kx, vx⟩ := x
    by_cases h1 : k < kx
    · simp [QMap.insert, h1]
    · by_cases h2 : k = kx
      · subst h2
        simp [QMap.insert]
      · simp [QMap.insert, h1, h2, ih]

theorem copySnapshotStep_eq (data : Int → Int → QString) (snapshot : QMap (QMap QString))
    (i : QModelIndex) :
    DataViewer.copySnapshotStep data snapshot i
      = QMap.insert snapshot i.row
          (QMap.insert ((QMap.lookup snapshot i.row).getD []) i.column
            (data i.row i.column)) := by
  unfold DataViewer.copySnapshotStep QMap.index
  cases h : QMap.lookup snapshot i.row with
  | some inner => rfl
  | none => simp [insert_insert]
theorem isSnapshotOf_step (data : Int → Int → QString) (l : List QModelIndex)
    (snapshot : QMap (QMap QString)) (i : QModelIndex) (h : IsSnapshotOf data l snapshot) :
    IsSnapshotOf data (l ++ [i]) (DataViewer.copySnapshotStep data snapshot i) := by
  obtain ⟨hs, hrows, hcells⟩ := h
  obtain ⟨r, c⟩ := i
  rw [copySnapshotStep_eq]
  simp only
  have hinner : List.Sorted (fun a b => a < b)
        (((QMap.lookup snapshot r).getD []).map Prod.fst) ∧
      (∀ c', c' ∈ ((QMap.lookup snapshot r).getD []).map Prod.fst
        ↔ (⟨r, c'⟩ : QModelIndex) ∈ l) ∧
      ∀ c' v, (c', v) ∈ (QMap.lookup snapshot r).getD [] → v = data r c' := by
    cases hl : QMap.lookup snapshot r with
    | some inner => exact hcells r inner (lookup_some_mem snapshot r inner hl)
    | none =>
      have hr := lookup_none_not_mem snapshot r hl
      rw [hrows r] at hr
      refine ⟨by simp, ?_, by simp⟩
      intro c'
      simp only [Option.getD_none, List.map_nil, List.not_mem_nil, false_iff]
      intro hmem
      exact hr (List.mem_map.2 ⟨⟨r, c'⟩, hmem, rfl⟩)
  obtain ⟨his, hik, hiv⟩ := hinner
  refine ⟨sorted_keys_insert _ _ _ hs, ?_, ?_⟩
  · intro r'
    rw [mem_keys_insert, hrows r']
    simp only [List.map_append, List.map_cons, List.map_nil, List.mem_append,
      List.mem_singleton]
    tauto
  · intro r' inner' hmem
    by_cases hr : r' = r
    · subst hr
      have hval := value_unique _ (sorted_keys_insert r'
        (QMap.insert ((QMap.lookup snapshot r').getD []) c (data r' c)) snapshot hs)
        r' _ _ hmem (mem_insert_self _ _ _)
      subst hval
      refine ⟨sorted_keys_insert _ _ _ his, ?_, ?_⟩
      · intro c'
        rw [mem_keys_insert, hik c']
        simp only [List.mem_append, List.mem_singleton, QModelIndex.mk.injEq, true_and]
        tauto
      · intro c' v hcv
        rcases mem_insert _ _ _ _ hcv with h | h
        · simp only [Prod.mk.injEq] at h
          rw [h.1, h.2]
        · exact hiv c' v h
    · rcases mem_insert _ _ _ _ hmem with h | h
      · exact absurd (Prod.mk.inj h).1 hr
      · obtain ⟨h1, h2, h3⟩ := hcells r' inner' h
        refine ⟨h1, ?_, h3⟩
        intro c'
        rw [h2 c']
        simp only [List.mem_append, List.mem_singleton, QModelIndex.mk.injEq]
        tauto

theorem isSnapshotOf_foldl (data : Int → Int → QString) (l2 : List QModelIndex) :
    ∀ (l1 : List QModelIndex) (snapshot : QMap (QMap QString)),
      IsSnapshotOf data l1 snapshot →
      IsSnapshotOf data (l1 ++ l2) (l2.foldl (DataViewer.copySnapshotStep data) snapshot) := by
  induction l2 with
  | nil => intro l1 snapshot h; simpa using h
  | cons i l2 ih =>
    intro l1 snapshot h
    have := ih (l1 ++ [i]) _ (isSnapshotOf_step data l1 snapshot i h)
    simpa using this

theorem isSnapshotOf_copyHandler (data : Int → Int → QString) (l : List QModelIndex) :
    IsSnapshotOf data l (l.foldl (DataViewer.copySnapshotStep data) []) := by
  have := isSnapshotOf_foldl data l [] [] ⟨by simp, by simp, by simp⟩
  simpa using this

theorem mem_ascendingKeys (ks : List Int) (x : Int) : x ∈ ascendingKeys ks ↔ x ∈ ks := by
  unfold ascendingKeys
  rw [(List.perm_insertionSort _ _).mem_iff, List.mem_dedup]

theorem nodup_ascendingKeys (ks : List Int) : (ascendingKeys ks).Nodup := by
  unfold ascendingKeys
  exact (List.perm_insertionSort _ _).nodup_iff.2 (List.nodup_dedup ks)

theorem sorted_ascendingKeys (ks : List Int) :
    (ascendingKeys ks).Sorted (fun a b => a ≤ b) :=
  List.sorted_insertionSort _ _

theorem eq_ascendingKeys (ks L : List Int) (hs : L.Sorted (fun a b => a < b))
    (hm : ∀ x, x ∈ L ↔ x ∈ ks) : L = ascendingKeys ks := by
  apply List.eq_of_perm_of_sorted _ (hs.imp (fun h => le_of_lt h)) (sorted_ascendingKeys ks)
  apply (List.perm_ext_iff_of_nodup hs.nodup (nodup_ascendingKeys ks)).2
  intro x
  rw [hm x, mem_ascendingKeys]

theorem ascendingKeys_congr (ks ks' : List Int) (h : ∀ x, x ∈ ks ↔ x ∈ ks') :
    ascendingKeys ks = ascendingKeys ks' := by
  apply List.eq_of_perm_of_sorted _ (sorted_ascendingKeys ks) (sorted_ascendingKeys ks')
  apply (List.perm_ext_iff_of_nodup (nodup_ascendingKeys ks) (nodup_ascendingKeys ks')).2
  intro x
  rw [mem_ascendingKeys, mem_ascendingKeys, h x]

theorem eq_map_keys {V : Type} (g : Int → V) (m : QMap V) (h : ∀ e ∈ m, e.2 = g e.1) :
    m = (m.map Prod.fst).map (fun k => (k, g k)) := by
  induction m with
  | nil => rfl
  | cons e rest ih =>
    obtain ⟨k, v⟩ := e
    have hv : v = g k := h (k, v) (List.mem_cons_self _ _)
    rw [List.map_cons, List.map_cons, ← ih (fun e he => h e (List.mem_cons_of_mem _ he)), hv]

theorem snapshot_eq (data : Int → Int → QString) (l : List QModelIndex)
    (snapshot : QMap (QMap QString)) (h : IsSnapshotOf data l snapshot) :
    snapshot = (ascendingKeys (l.map (fun i => i.row))).map (fun r =>
      (r, (ascendingKeys
        ((l.filter (fun i => decide (i.row = r))).map (fun i => i.column))).map
          (fun c => (c, data r c)))) := by
  obtain ⟨hs, hrows, hcells⟩ := h
  rw [← eq_ascendingKeys _ _ hs hrows]
  apply eq_map_keys
  rintro ⟨r, inner⟩ he
  obtain ⟨h1, h2, h3⟩ := hcells r inner he
  show inner = _
  rw [← eq_ascendingKeys _ _ h1 (fun c => by
    rw [h2 c]
    simp only [List.mem_map, List.mem_filter, decide_eq_true_eq]
    constructor
    · intro hm
      exact ⟨⟨r, c⟩, ⟨hm, rfl⟩, rfl⟩
    · rintro ⟨⟨r', c'⟩, ⟨hm, hr⟩, hc⟩
      simp only at hr hc
      subst hr hc
      exact hm)]
  exact eq_map_keys (data r) inner (fun e he' => h3 e.1 e.2 he')

theorem copyRow_flatten : ∀ m : QMap QString,
    (DataViewer.copyRow m).flatten = List.intercalate ['\t'] (m.map Prod.snd)
  | [] => rfl
  | [(_, v)] => by simp [DataViewer.copyRow, List.intercalate]
  | (_, v) :: e :: rest => by
    have ih := copyRow_flatten (e :: rest)
    have e1 : "\t".toList = ['\t'] := rfl
    rw [DataViewer.copyRow, List.flatten_cons, List.flatten_cons, ih, e1]
    simp [List.intercalate, List.intersperse]

theorem copyOut_flatten (snapshot : QMap (QMap QString)) :
    (DataViewer.copyOut snapshot).flatten
      = snapshot.flatMap (fun e => List.intercalate ['\t'] (e.2.map Prod.snd) ++ ['\n']) := by
  unfold DataViewer.copyOut
  induction snapshot with
  | nil => rfl
  | cons e rest ih =>
    have e1 : "\n".toList = ['\n'] := rfl
    rw [List.flatMap_cons, List.flatMap_cons, List.flatten_append, ih, List.flatten_append,
      copyRow_flatten, e1]
    simp

theorem copyOut_length (snapshot : QMap (QMap QString)) :
    (DataViewer.copyOut snapshot).length ≠ 0 ↔ snapshot ≠ [] := by
  unfold DataViewer.copyOut
  cases snapshot with
  | nil => simp
  | cons e rest => simp

theorem selectionText_congr (data : Int → Int → QString) (l l' : List QModelIndex)
    (h : ∀ i, i ∈ l ↔ i ∈ l') : selectionText data l = selectionText data l' := by
  unfold selectionText
  have hrows : ascendingKeys (l.map (fun i => i.row)) = ascendingKeys (l'.map (fun i => i.row)) :=
    ascendingKeys_congr _ _ (fun x => by simp only [List.mem_map, h])
  rw [hrows]
  congr 1
  funext r
  have hcols : ascendingKeys ((l.filter (fun i => decide (i.row = r))).map (fun i => i.column))
      = ascendingKeys ((l'.filter (fun i => decide (i.row = r))).map (fun i => i.column)) :=
    ascendingKeys_congr _ _ (fun x => by simp only [List.mem_map, List.mem_filter, h])
  rw [hcols]

theorem copyHandler_eq (data : Int → Int → QString) (l : List QModelIndex) (hl : l ≠ []) :
    DataViewer.copyHandler data l = some (selectionText data l) := by
  have hsnap := snapshot_eq data l _ (isSnapshotOf_copyHandler data l)
  have hne : l.foldl (DataViewer.copySnapshotStep data) [] ≠ [] := by
    intro h0
    have := (isSnapshotOf_copyHandler data l).2.1
    rw [h0] at this
    cases l with
    | nil => exact hl rfl
    | cons i rest =>
      have := (this i.row).2 (by simp)
      simp at this
  unfold DataViewer.copyHandler
  simp only
  rw [if_pos ((copyOut_length _).2 hne), copyOut_flatten]
  congr 1
  rw [hsnap]
  unfold selectionText
  rw [List.flatMap_map]
  congr 1
  funext r
  simp [Function.comp_def]

/-- C14: with an empty selection `DataViewer::copyHandler` does not write the clipboard;
with a selection it sets the clipboard to the rows in ascending row index, in each row the
cell texts in ascending column index joined by one tab, a newline after each row; two
selections of the same cells, in whatever order they were selected, give the same
result. -/
theorem DataViewer.copyHandler_selection (data : Int → Int → QString)
    (l : List QModelIndex) :
    DataViewer.copyHandler data [] = none ∧
    (l ≠ [] → DataViewer.copyHandler data l = some (selectionText data l)) ∧
    (∀ l', l.Perm l' → DataViewer.copyHandler data l' = DataViewer.copyHandler data l) := by
  refine ⟨rfl, copyHandler_eq data l, ?_⟩
  intro l' hp
  by_cases hl : l = []
  · subst hl
    rw [List.nil_perm.1 hp]
  · have hl' : l' ≠ [] := fun h => hl (by rw [h] at hp; exact List.perm_nil.1 hp)
    rw [copyHandler_eq data l hl, copyHandler_eq data l' hl',
      selectionText_congr data l' l (fun i => hp.symm.mem_iff)]

/-- C14 at the cells (2,1), (0,3), (2,0), (0,1) and at the same cells selected in another
order. -/
theorem DataViewer.copyHandler_selection_witness :
    DataViewer.copyHandler (fun r c => [Char.ofNat (65 + r.toNat), Char.ofNat (48 + c.toNat)])
      [⟨2, 1⟩, ⟨0, 3⟩, ⟨2, 0⟩, ⟨0, 1⟩] = some "A1\tA3\nC0\tC1\n".toList ∧
    DataViewer.copyHandler (fun r c => [Char.ofNat (65 + r.toNat), Char.ofNat (48 + c.toNat)])
      [⟨0, 1⟩, ⟨0, 3⟩, ⟨2, 0⟩, ⟨2, 1⟩] = some "A1\tA3\nC0\tC1\n".toList :=
  ⟨((DataViewer.copyHandler_selection
      (fun r c => [Char.ofNat (65 + r.toNat), Char.ofNat (48 + c.toNat)])
      [⟨2, 1⟩, ⟨0, 3⟩, ⟨2, 0⟩, ⟨0, 1⟩]).2.1 (by decide)).trans (by decide),
    ((DataViewer.copyHandler_selection
      (fun r c => [Char.ofNat (65 + r.toNat), Char.ofNat (48 + c.toNat)])
      [⟨2, 1⟩, ⟨0, 3⟩, ⟨2, 0⟩, ⟨0, 1⟩]).2.2
      [⟨0, 1⟩, ⟨0, 3⟩, ⟨2, 0⟩, ⟨2, 1⟩]
      (by decide)).trans
      (((DataViewer.copyHandler_selection
        (fun r c => [Char.ofNat (65 + r.toNat), Char.ofNat (48 + c.toNat)])
        [⟨2, 1⟩, ⟨0, 3⟩, ⟨2, 0⟩, ⟨0, 1⟩]).2.1 (by decide)).trans (by decide))⟩

/-! ### The scanner of the DDL parser on a well written statement -/

end Sqliteman
